import Mathlib

set_option maxRecDepth 4000

/-!
# Verification of the gpt-oss-harmony-groq core

A shallow embedding, in Lean 4, of the agentic tool-execution core of the
`gpt-oss-harmony-groq` proxy: the Harmony protocol codec
(`convertToHarmonyFormat` / `parseHarmonyResponse`), the tool invocation
governor (`executeToolCall` / `executeToolCalls`), the orchestrator loop
(`handleChatCompletionWithTools`), the streaming reconstructor
(`processGptOssStream`), and the iteration-cap configuration.

Modelling conventions:
* JavaScript's `JSON.parse` / `JSON.stringify` are embedded as `jsonParse` /
  `jsonStringify` over the value type `JsonV`.  JSON numbers are modelled as
  integers (the arguments this system exchanges are strings and small
  integers); fractional and exponent literals are outside the model.
  Duplicate object keys follow the JavaScript rule: the later value wins and
  the key keeps its first position.
* Asynchronous execution is modelled by an explicit completion schedule
  (a permutation of the call indices); `Promise.all` result aggregation is
  `assembleByIndex`.  Wall-clock fields (`execution_time_ms`) are omitted.
* Non-deterministic call-id generation (`Date.now()` + `Math.random()`) is
  modelled by an explicit generator parameter `idGen : Nat → String`.
-/

/-- A JavaScript JSON value.  Numbers are modelled as integers (see the header
comment); objects are ordered member lists with unique keys once produced by
`jsonParse`. -/
inductive JsonV where
  | null : JsonV
  | bool (b : Bool) : JsonV
  | num (n : Int) : JsonV
  | str (s : String) : JsonV
  | arr (elems : List JsonV) : JsonV
  | obj (members : List (String × JsonV)) : JsonV
deriving Repr

/-- JSON whitespace, as accepted between tokens by `JSON.parse`. -/
def jsonWs (c : Char) : Bool :=
  c == ' ' || c == '\t' || c == '\n' || c == '\r'

/-- Drop leading JSON whitespace. -/
def dropWs : List Char → List Char
  | [] => []
  | c :: cs => if jsonWs c then dropWs cs else c :: cs

/-- ASCII decimal digit test. -/
def isDigitCh (c : Char) : Bool := '0' ≤ c && c ≤ '9'

/-- Split off the maximal leading run of decimal digits. -/
def takeDigitRun : List Char → List Char × List Char
  | [] => ([], [])
  | c :: cs =>
    if isDigitCh c then
      let p := takeDigitRun cs
      (c :: p.1, p.2)
    else ([], c :: cs)

/-- Value of a digit run, most significant digit first. -/
def digitRunToNat (ds : List Char) : Nat :=
  ds.foldl (fun a c => a * 10 + (c.toNat - 48)) 0

/-- Parse an unsigned JSON integer literal (digits with the JSON leading-zero
restriction), negated when `neg` is set. -/
def parseJNat (neg : Bool) (cs : List Char) : Option (Int × List Char) :=
  match takeDigitRun cs with
  | ([], _) => none
  | (d :: ds, r) =>
    if d == '0' && !ds.isEmpty then none
    else
      let n : Int := Int.ofNat (digitRunToNat (d :: ds))
      some (if neg then -n else n, r)

/-- Parse a JSON integer literal: optional minus sign, then digits. -/
def parseJNum (cs : List Char) : Option (Int × List Char) :=
  match cs with
  | '-' :: r => parseJNat true r
  | _ => parseJNat false cs

/-- Value of one hexadecimal digit. -/
def hexDigitVal (c : Char) : Option Nat :=
  if '0' ≤ c && c ≤ '9' then some (c.toNat - 48)
  else if 'a' ≤ c && c ≤ 'f' then some (c.toNat - 97 + 10)
  else if 'A' ≤ c && c ≤ 'F' then some (c.toNat - 65 + 10)
  else none

/-- Single-character JSON escapes. -/
def unescapeCh (c : Char) : Option Char :=
  if c = '"' ∨ c = '\\' ∨ c = '/' then some c
  else if c = 'n' then some '\n'
  else if c = 'r' then some '\r'
  else if c = 't' then some '\t'
  else if c = 'b' then some (Char.ofNat 8)
  else if c = 'f' then some (Char.ofNat 12)
  else none

/-- Parse the body of a JSON string after the opening quote (fuel-indexed so
that the definition is structurally recursive), returning the decoded
characters and the input after the closing quote.  Raw control characters are
rejected, as `JSON.parse` does.  Every step consumes at least one character,
so fuel `length + 1` always suffices. -/
def parseJStrBodyF : Nat → List Char → Option (List Char × List Char)
  | 0, _ => none
  | _ + 1, [] => none
  | fuel + 1, c :: r =>
    if c = '"' then some ([], r)
    else if c = '\\' then
      match r with
      | 'u' :: a :: b :: c2 :: d :: r2 =>
        match hexDigitVal a, hexDigitVal b, hexDigitVal c2, hexDigitVal d with
        | some va, some vb, some vc, some vd =>
          match parseJStrBodyF fuel r2 with
          | some (body, r3) =>
            some (Char.ofNat (((va * 16 + vb) * 16 + vc) * 16 + vd) :: body, r3)
          | none => none
        | _, _, _, _ => none
      | e :: r2 =>
        match unescapeCh e with
        | some ch =>
          match parseJStrBodyF fuel r2 with
          | some (body, r3) => some (ch :: body, r3)
          | none => none
        | none => none
      | [] => none
    else if 32 ≤ c.toNat then
      match parseJStrBodyF fuel r with
      | some (body, r2) => some (c :: body, r2)
      | none => none
    else none

/-- String-body parse with the always-sufficient fuel. -/
def parseJStrBody (cs : List Char) : Option (List Char × List Char) :=
  parseJStrBodyF (cs.length + 1) cs

/-- JavaScript object-member update: assigning an existing key overwrites its
value in place; a fresh key is appended. -/
def putKey : List (String × JsonV) → String → JsonV → List (String × JsonV)
  | [], k, v => [(k, v)]
  | (k0, v0) :: rest, k, v =>
    if k0 = k then (k0, v) :: rest else (k0, v0) :: putKey rest k v

/-- What the recursive JSON parser is currently reading: a single value, the
items of an array (with the items read so far), or the members of an object
(with the members read so far). -/
inductive JTask where
  | val : JTask
  | items (acc : List JsonV) : JTask
  | fields (acc : List (String × JsonV)) : JTask

/-- The result of one `JTask`. -/
inductive JRes where
  | v (x : JsonV) : JRes
  | es (xs : List JsonV) : JRes
  | ms (xs : List (String × JsonV)) : JRes

/-- Fuel-indexed JSON parser (the core of the `JSON.parse` model), written as
a single structurally recursive function over the pending `JTask` so that it
evaluates by kernel reduction. -/
def jrun : Nat → JTask → List Char → Option (JRes × List Char)
  | 0, _, _ => none
  | fuel + 1, .val, cs =>
    match dropWs cs with
    | 'n' :: 'u' :: 'l' :: 'l' :: r => some (.v .null, r)
    | 't' :: 'r' :: 'u' :: 'e' :: r => some (.v (.bool true), r)
    | 'f' :: 'a' :: 'l' :: 's' :: 'e' :: r => some (.v (.bool false), r)
    | '"' :: r =>
      match parseJStrBody r with
      | some (body, r2) => some (.v (.str (String.mk body)), r2)
      | none => none
    | '[' :: r =>
      match dropWs r with
      | ']' :: r2 => some (.v (.arr []), r2)
      | r1 =>
        match jrun fuel (.items []) r1 with
        | some (.es xs, r2) => some (.v (.arr xs), r2)
        | _ => none
    | '{' :: r =>
      match dropWs r with
      | '}' :: r2 => some (.v (.obj []), r2)
      | r1 =>
        match jrun fuel (.fields []) r1 with
        | some (.ms xs, r2) => some (.v (.obj xs), r2)
        | _ => none
    | cs1 =>
      match parseJNum cs1 with
      | some (n, r) => some (.v (.num n), r)
      | none => none
  | fuel + 1, .items acc, cs =>
    match jrun fuel .val cs with
    | some (.v x, r) =>
      match dropWs r with
      | ',' :: r2 => jrun fuel (.items (acc ++ [x])) r2
      | ']' :: r2 => some (.es (acc ++ [x]), r2)
      | _ => none
    | _ => none
  | fuel + 1, .fields acc, cs =>
    match dropWs cs with
    | '"' :: r =>
      match parseJStrBody r with
      | none => none
      | some (kbody, r1) =>
        match dropWs r1 with
        | ':' :: r2 =>
          match jrun fuel .val r2 with
          | some (.v x, r3) =>
            match dropWs r3 with
            | ',' :: r4 => jrun fuel (.fields (putKey acc (String.mk kbody) x)) r4
            | '}' :: r4 => some (.ms (putKey acc (String.mk kbody) x), r4)
            | _ => none
          | _ => none
        | _ => none
    | _ => none

/-- The `JSON.parse` model: parse a complete document, rejecting trailing
garbage.  The fuel `2 * length + 2` is always sufficient: every unit of fuel
spent corresponds to at least half a consumed character. -/
def jsonParse (s : String) : Option JsonV :=
  match jrun (2 * s.data.length + 2) .val s.data with
  | some (.v x, r) => if dropWs r = [] then some x else none
  | _ => none

/-- Hexadecimal digit character (lowercase), for control-character escapes. -/
def hexDigitCh (n : Nat) : Char :=
  if n < 10 then Char.ofNat (48 + n) else Char.ofNat (97 + (n - 10))

/-- JSON-escape one character the way `JSON.stringify` does. -/
def escapeJChar (c : Char) : List Char :=
  if c = '"' then ['\\', '"']
  else if c = '\\' then ['\\', '\\']
  else if c = '\n' then ['\\', 'n']
  else if c = '\r' then ['\\', 'r']
  else if c = '\t' then ['\\', 't']
  else if c.toNat = 8 then ['\\', 'b']
  else if c.toNat = 12 then ['\\', 'f']
  else if c.toNat < 32 then
    ['\\', 'u', '0', '0', hexDigitCh (c.toNat / 16), hexDigitCh (c.toNat % 16)]
  else [c]

/-- A quoted, escaped JSON string literal. -/
def printJStr (s : String) : List Char :=
  '"' :: (s.data.flatMap escapeJChar ++ ['"'])

/-- Decimal digits of a natural number, most significant first (fuel-indexed,
structurally recursive; one digit is produced per unit of fuel). -/
def natDigitCharsF : Nat → Nat → List Char
  | 0, n => [Char.ofNat (48 + n % 10)]
  | fuel + 1, n =>
    if n < 10 then [Char.ofNat (48 + n)]
    else natDigitCharsF fuel (n / 10) ++ [Char.ofNat (48 + n % 10)]

/-- Decimal digits of a natural number, most significant first. -/
def natDigitChars (n : Nat) : List Char := natDigitCharsF n n

/-- Characters of an integer literal. -/
def intChars (i : Int) : List Char :=
  if i < 0 then '-' :: natDigitChars i.natAbs else natDigitChars i.natAbs

mutual

/-- Compact rendering of a JSON value — the `JSON.stringify(v)` model. -/
def printJson : JsonV → List Char
  | .null => "null".data
  | .bool true => "true".data
  | .bool false => "false".data
  | .num n => intChars n
  | .str s => printJStr s
  | .arr es => '[' :: (printItems es ++ [']'])
  | .obj ms => '{' :: (printFields ms ++ ['}'])

/-- Array items joined by commas. -/
def printItems : List JsonV → List Char
  | [] => []
  | [e] => printJson e
  | e :: es => printJson e ++ ',' :: printItems es

/-- Object members joined by commas. -/
def printFields : List (String × JsonV) → List Char
  | [] => []
  | [(k, v)] => printJStr k ++ ':' :: printJson v
  | (k, v) :: ms => printJStr k ++ ':' :: (printJson v ++ ',' :: printFields ms)

end

/-- The `JSON.stringify` model (compact form, no spacing argument). -/
def jsonStringify (v : JsonV) : String := String.mk (printJson v)

example : jsonParse "\x7b\"location\": \"Paris\"\x7d" =
    some (.obj [("location", .str "Paris")]) := by rfl

example : jsonParse "  [1, -20, true, null] " =
    some (.arr [.num 1, .num (-20), .bool true, .null]) := by rfl

example : jsonParse "\x7bquery: test\x7d" = none := by rfl

example : jsonStringify (.obj [("location", .str "Paris")]) =
    "\x7b\"location\":\"Paris\"\x7d" := by
  simp [jsonStringify, printJson, printFields, printJStr, escapeJChar]

/-! ### Codec round-trip: digits and integers -/

theorem dropWs_cons_of {c : Char} (t : List Char) (h : jsonWs c = false) :
    dropWs (c :: t) = c :: t := by
  simp [dropWs, h]

theorem digitCh_spec (n : Nat) (h : n < 10) :
    isDigitCh (Char.ofNat (48 + n)) = true ∧ (Char.ofNat (48 + n)).toNat - 48 = n := by
  interval_cases n <;> exact ⟨by decide, by decide⟩

/-- The head of a nonempty input that `takeDigitRun` refuses to consume. -/
def noDigitHead : List Char → Prop
  | [] => True
  | c :: _ => isDigitCh c = false

theorem takeDigitRun_of_noDigit {cs : List Char} (h : noDigitHead cs) :
    takeDigitRun cs = ([], cs) := by
  cases cs with
  | nil => rfl
  | cons c t => simp [takeDigitRun, noDigitHead] at h ⊢; simp [h]

theorem takeDigitRun_run (ds : List Char) (hds : ∀ c ∈ ds, isDigitCh c = true)
    (rest : List Char) (hrest : noDigitHead rest) :
    takeDigitRun (ds ++ rest) = (ds, rest) := by
  induction ds with
  | nil => simpa using takeDigitRun_of_noDigit hrest
  | cons c t ih =>
    have hc : isDigitCh c = true := hds c (by simp)
    have ht := ih (fun x hx => hds x (by simp [hx]))
    simp [takeDigitRun, hc, ht]

theorem natDigitCharsF_spec :
    ∀ n fuel, n ≤ fuel →
      (∀ c ∈ natDigitCharsF fuel n, isDigitCh c = true) ∧
      digitRunToNat (natDigitCharsF fuel n) = n ∧
      natDigitCharsF fuel n ≠ [] ∧
      (∀ ds, natDigitCharsF fuel n = '0' :: ds → n = 0 ∧ ds = []) := by
  intro n
  induction n using Nat.strongRecOn with
  | _ n ih =>
    intro fuel hfuel
    match fuel with
    | 0 =>
      have hn : n = 0 := Nat.le_zero.mp hfuel
      subst hn
      have h1 : natDigitCharsF 0 0 = ['0'] := by decide
      rw [h1]
      refine ⟨?_, by decide, by decide, ?_⟩
      · intro c hc
        have : c = '0' := by simpa using hc
        subst this; decide
      · intro ds hds
        injection hds with _ h2
        exact ⟨rfl, h2.symm⟩
    | fuel + 1 =>
      by_cases h10 : n < 10
      · have h1 : natDigitCharsF (fuel + 1) n = [Char.ofNat (48 + n)] := by
          simp [natDigitCharsF, h10]
        rw [h1]
        refine ⟨?_, ?_, by simp, ?_⟩
        · intro c hc
          have : c = Char.ofNat (48 + n) := by simpa using hc
          subst this
          exact (digitCh_spec n h10).1
        · simp [digitRunToNat]
          have := (digitCh_spec n h10).2
          omega
        · intro ds hds
          injection hds with hh h2
          have hval : (Char.ofNat (48 + n)).toNat - 48 = n := (digitCh_spec n h10).2
          rw [hh] at hval
          have h48 : ('0' : Char).toNat = 48 := by decide
          rw [h48] at hval
          exact ⟨by omega, h2.symm⟩
      · have hrec := ih (n / 10) (by omega) fuel (by omega)
        obtain ⟨hd, hv, hne, hz⟩ := hrec
        have hstep : natDigitCharsF (fuel + 1) n
            = natDigitCharsF fuel (n / 10) ++ [Char.ofNat (48 + n % 10)] := by
          simp [natDigitCharsF, h10]
        have hmod : n % 10 < 10 := Nat.mod_lt _ (by omega)
        refine ⟨?_, ?_, ?_, ?_⟩
        · intro c hc
          rw [hstep] at hc
          rcases List.mem_append.mp hc with h | h
          · exact hd c h
          · simp at h; subst h; exact (digitCh_spec _ hmod).1
        · rw [hstep, digitRunToNat, List.foldl_append]
          have := (digitCh_spec _ hmod).2
          have hfold : (natDigitCharsF fuel (n / 10)).foldl
              (fun a c => a * 10 + (c.toNat - 48)) 0 = n / 10 := hv
          simp [hfold]
          omega
        · rw [hstep]; simp
        · intro ds hds
          rw [hstep] at hds
          match hcs : natDigitCharsF fuel (n / 10) with
          | [] => exact absurd hcs hne
          | c0 :: t0 =>
            rw [hcs] at hds
            simp only [List.cons_append] at hds
            injection hds with hh h2
            have := hz t0 (by rw [hcs, hh])
            exact absurd this.1 (by omega)

theorem natDigitChars_spec (n : Nat) :
    (∀ c ∈ natDigitChars n, isDigitCh c = true) ∧
    digitRunToNat (natDigitChars n) = n ∧
    natDigitChars n ≠ [] ∧
    (∀ ds, natDigitChars n = '0' :: ds → n = 0 ∧ ds = []) :=
  natDigitCharsF_spec n n (Nat.le_refl n)

theorem digit_ne_minus {c : Char} (h : isDigitCh c = true) : c ≠ '-' := by
  intro hc; subst hc; exact absurd h (by decide)

/-- `parseJNat` inverts the digit characters of `m`, with the requested sign. -/
theorem parseJNat_digits (m : Nat) (neg : Bool) (rest : List Char)
    (hrest : noDigitHead rest) :
    parseJNat neg (natDigitChars m ++ rest) =
      some (cond neg (-(m : Int)) (m : Int), rest) := by
  obtain ⟨hdig, hval, hne, hzero⟩ := natDigitChars_spec m
  have hrun : takeDigitRun (natDigitChars m ++ rest) = (natDigitChars m, rest) :=
    takeDigitRun_run _ hdig _ hrest
  match hds : natDigitChars m with
  | [] => exact absurd hds hne
  | d :: ds =>
    have hlead : (d == '0' && !ds.isEmpty) = false := by
      by_cases hd0 : d = '0'
      · subst hd0
        have := hzero ds hds
        simp [this.2]
      · simp [hd0]
    rw [hds] at hrun
    have hvv : digitRunToNat (d :: ds) = m := by rw [← hds]; exact hval
    simp only [List.cons_append] at hrun ⊢
    simp only [parseJNat, hrun, hlead]
    simp only [Bool.false_eq_true, if_false]
    rw [hvv]
    cases neg <;> simp

/-- `parseJNum` inverts `intChars` whenever the remainder does not begin with
a digit. -/
theorem parseJNum_intChars (n : Int) (rest : List Char) (hrest : noDigitHead rest) :
    parseJNum (intChars n ++ rest) = some (n, rest) := by
  by_cases hneg : n < 0
  · have harg : intChars n ++ rest = '-' :: (natDigitChars n.natAbs ++ rest) := by
      simp [intChars, hneg]
    rw [harg]
    simp only [parseJNum]
    rw [parseJNat_digits n.natAbs true rest hrest]
    simp only [cond_true]
    have : -(n.natAbs : Int) = n := by omega
    rw [this]
  · obtain ⟨hdig, hval, hne, hzero⟩ := natDigitChars_spec n.natAbs
    have harg : intChars n ++ rest = natDigitChars n.natAbs ++ rest := by
      simp [intChars, hneg]
    have hkey : parseJNat false (natDigitChars n.natAbs ++ rest) = some (n, rest) := by
      rw [parseJNat_digits n.natAbs false rest hrest]
      simp only [cond_false]
      have : (n.natAbs : Int) = n := by omega
      rw [this]
    match hds : natDigitChars n.natAbs with
    | [] => exact absurd hds hne
    | d :: ds =>
      have hd' : isDigitCh d = true := hdig d (by rw [hds]; simp)
      have hdm : d ≠ '-' := digit_ne_minus hd'
      rw [hds] at hkey
      rw [harg, hds]
      simp only [List.cons_append] at hkey ⊢
      simp only [parseJNum]
      split
      · rename_i r heq
        injection heq with h1 _
        exact absurd h1 hdm
      · exact hkey

/-! ### Codec round-trip: strings -/

theorem escapeJChar_ne_nil (c : Char) : 1 ≤ (escapeJChar c).length := by
  unfold escapeJChar
  repeat' split
  all_goals simp

theorem length_le_flatMap_escape (l : List Char) :
    l.length ≤ (l.flatMap escapeJChar).length := by
  induction l with
  | nil => simp
  | cons c t ih =>
    have := escapeJChar_ne_nil c
    simp only [List.flatMap_cons, List.length_append, List.length_cons]
    omega

theorem hexVal_hexDigitCh (k : Nat) (h : k < 16) : hexDigitVal (hexDigitCh k) = some k := by
  interval_cases k <;> decide

theorem parseJStrBodyF_lit (fuel : Nat) (c : Char) (R : List Char)
    (h1 : c ≠ '"') (h2 : c ≠ '\\') (h3 : 32 ≤ c.toNat) :
    parseJStrBodyF (fuel + 1) (c :: R) =
      (match parseJStrBodyF fuel R with
       | some (b, r) => some (c :: b, r)
       | none => none) := by
  simp only [parseJStrBodyF]
  rw [if_neg h1, if_neg h2, if_pos h3]

theorem escStep (c : Char) (fuel : Nat) (R : List Char) :
    parseJStrBodyF (fuel + 1) (escapeJChar c ++ R) =
      (match parseJStrBodyF fuel R with
       | some (b, r) => some (c :: b, r)
       | none => none) := by
  by_cases hq : c = '"'
  · subst hq; simp [escapeJChar, parseJStrBodyF, unescapeCh]
  by_cases hb : c = '\\'
  · subst hb; simp [escapeJChar, parseJStrBodyF, unescapeCh]
  by_cases hn : c = '\n'
  · subst hn; simp [escapeJChar, parseJStrBodyF, unescapeCh]
  by_cases hr : c = '\r'
  · subst hr; simp [escapeJChar, parseJStrBodyF, unescapeCh]
  by_cases ht : c = '\t'
  · subst ht; simp [escapeJChar, parseJStrBodyF, unescapeCh]
  by_cases h8 : c.toNat = 8
  · have hc : c = Char.ofNat 8 := by rw [← h8, Char.ofNat_toNat]
    subst hc
    simp [escapeJChar, parseJStrBodyF, unescapeCh, h8]
  by_cases h12 : c.toNat = 12
  · have hc : c = Char.ofNat 12 := by rw [← h12, Char.ofNat_toNat]
    subst hc
    simp [escapeJChar, parseJStrBodyF, unescapeCh, h12]
  by_cases hlt : c.toNat < 32
  · have hesc : escapeJChar c =
        ['\\', 'u', '0', '0', hexDigitCh (c.toNat / 16), hexDigitCh (c.toNat % 16)] := by
      simp [escapeJChar, hq, hb, hn, hr, ht, h8, h12, hlt]
    rw [hesc]
    simp only [List.cons_append, List.nil_append]
    rw [parseJStrBodyF.eq_def]
    simp only []
    have hv0 : hexDigitVal '0' = some 0 := by decide
    have hv1 : hexDigitVal (hexDigitCh (c.toNat / 16)) = some (c.toNat / 16) :=
      hexVal_hexDigitCh _ (by omega)
    have hv2 : hexDigitVal (hexDigitCh (c.toNat % 16)) = some (c.toNat % 16) :=
      hexVal_hexDigitCh _ (by omega)
    simp only [hv0, hv1, hv2]
    have harith : ((0 * 16 + 0) * 16 + c.toNat / 16) * 16 + c.toNat % 16 = c.toNat := by omega
    rw [harith, Char.ofNat_toNat]
    simp
  · have hesc : escapeJChar c = [c] := by
      simp [escapeJChar, hq, hb, hn, hr, ht, h8, h12, hlt]
    rw [hesc]
    simp only [List.cons_append, List.nil_append]
    exact parseJStrBodyF_lit fuel c R hq hb (by omega)

theorem parseJStrBodyF_rt (l : List Char) : ∀ (fuel : Nat) (rest : List Char),
    l.length < fuel →
    parseJStrBodyF fuel (l.flatMap escapeJChar ++ '"' :: rest) = some (l, rest) := by
  induction l with
  | nil =>
    intro fuel rest h
    match fuel with
    | f + 1 => simp [parseJStrBodyF]
  | cons c t ih =>
    intro fuel rest h
    match fuel with
    | f + 1 =>
      simp only [List.flatMap_cons, List.append_assoc]
      rw [escStep]
      rw [ih f rest (by simp at h; omega)]

/-- The string-body parser inverts `JSON.stringify` escaping. -/
theorem parseJStrBody_rt (l : List Char) (rest : List Char) :
    parseJStrBody (l.flatMap escapeJChar ++ '"' :: rest) = some (l, rest) := by
  have hlen : l.length < (l.flatMap escapeJChar ++ '"' :: rest).length + 1 := by
    have := length_le_flatMap_escape l
    simp only [List.length_append, List.length_cons]
    omega
  exact parseJStrBodyF_rt l _ rest hlen

/-! ### Codec round-trip: values -/

mutual

/-- Well-formed JSON values: every object (at any depth) has pairwise distinct
keys.  `jsonParse` only ever produces well-formed values. -/
def wfJ : JsonV → Prop
  | .arr es => wfL es
  | .obj ms => (ms.map Prod.fst).Nodup ∧ wfM ms
  | _ => True

/-- All elements well-formed. -/
def wfL : List JsonV → Prop
  | [] => True
  | e :: es => wfJ e ∧ wfL es

/-- All member values well-formed. -/
def wfM : List (String × JsonV) → Prop
  | [] => True
  | m :: ms => wfJ m.2 ∧ wfM ms

end

mutual

/-- Parser fuel needed for a value (an upper bound on recursion depth). -/
def needJ : JsonV → Nat
  | .arr [] => 1
  | .arr (e :: es) => 1 + needI (e :: es)
  | .obj [] => 1
  | .obj (m :: ms) => 1 + needF (m :: ms)
  | _ => 1

/-- Parser fuel needed for array items. -/
def needI : List JsonV → Nat
  | [] => 1
  | e :: es => 1 + needJ e + needI es

/-- Parser fuel needed for object members. -/
def needF : List (String × JsonV) → Nat
  | [] => 1
  | m :: ms => 1 + needJ m.2 + needF ms

end

theorem putKey_fresh (acc : List (String × JsonV)) (k : String) (v : JsonV)
    (h : ∀ p ∈ acc, p.1 ≠ k) : putKey acc k v = acc ++ [(k, v)] := by
  induction acc with
  | nil => rfl
  | cons p acc ih =>
    have hp : p.1 ≠ k := h p (by simp)
    match p with
    | (k0, v0) =>
      simp only [putKey]
      rw [if_neg hp]
      rw [ih (fun q hq => h q (by simp [hq]))]
      simp

theorem digit_head_facts {c : Char} (h : isDigitCh c = true) :
    jsonWs c = false ∧ c ≠ 'n' ∧ c ≠ 't' ∧ c ≠ 'f' ∧ c ≠ '"' ∧ c ≠ '[' ∧
    c ≠ '{' ∧ c ≠ ']' ∧ c ≠ '}' := by
  refine ⟨?_, ?_, ?_, ?_, ?_, ?_, ?_, ?_, ?_⟩
  · simp only [isDigitCh, Bool.and_eq_true, decide_eq_true_eq] at h
    simp only [jsonWs, Bool.or_eq_false_iff, beq_eq_false_iff_ne]
    refine ⟨⟨⟨?_, ?_⟩, ?_⟩, ?_⟩ <;> (intro hh; subst hh; revert h; decide)
  all_goals (intro hh; subst hh; exact absurd h (by decide))

/-- Every rendered JSON value begins with a character that is not whitespace
and closes nothing. -/
theorem printJson_head (v : JsonV) :
    ∃ c t, printJson v = c :: t ∧ jsonWs c = false ∧ c ≠ ']' ∧ c ≠ '}' := by
  match v with
  | .null => exact ⟨'n', _, rfl, by decide, by decide, by decide⟩
  | .bool true => exact ⟨'t', _, rfl, by decide, by decide, by decide⟩
  | .bool false => exact ⟨'f', _, rfl, by decide, by decide, by decide⟩
  | .str s => exact ⟨'"', _, rfl, by decide, by decide, by decide⟩
  | .arr es =>
    exact ⟨'[', printItems es ++ [']'], by simp [printJson], by decide, by decide, by decide⟩
  | .obj ms =>
    exact ⟨'{', printFields ms ++ ['}'], by simp [printJson], by decide, by decide, by decide⟩
  | .num n =>
    by_cases hneg : n < 0
    · exact ⟨'-', natDigitChars n.natAbs, by simp [printJson, intChars, hneg],
        by decide, by decide, by decide⟩
    · obtain ⟨hdig, _, hne, _⟩ := natDigitChars_spec n.natAbs
      match hds : natDigitChars n.natAbs with
      | [] => exact absurd hds hne
      | d :: ds =>
        have hd := hdig d (by rw [hds]; simp)
        obtain ⟨hws, _, _, _, _, _, _, hbr, hbc⟩ := digit_head_facts hd
        exact ⟨d, ds, by simp [printJson, intChars, hneg, hds], hws, hbr, hbc⟩

/-- Rendered items begin like their first rendered value. -/
theorem printItems_head (e : JsonV) (es : List JsonV) :
    ∃ c t, printItems (e :: es) = c :: t ∧ jsonWs c = false ∧ c ≠ ']' ∧ c ≠ '}' := by
  obtain ⟨c, t, hpr, hws, hbr, hbc⟩ := printJson_head e
  cases es with
  | nil => exact ⟨c, t, by simp [printItems, hpr], hws, hbr, hbc⟩
  | cons e2 es2 =>
    exact ⟨c, t ++ ',' :: printItems (e2 :: es2), by simp [printItems, hpr], hws, hbr, hbc⟩

theorem dropWs_append_head {c : Char} {t : List Char} (X : List Char)
    (h : jsonWs c = false) : dropWs ((c :: t) ++ X) = c :: (t ++ X) := by
  simp [dropWs, h]

/-- The value parser falls through to the number branch when the head is none
of the other token starters. -/
theorem jrun_val_default (fuel : Nat) (c : Char) (t : List Char)
    (hws : jsonWs c = false) (h1 : c ≠ 'n') (h2 : c ≠ 't') (h3 : c ≠ 'f')
    (h4 : c ≠ '"') (h5 : c ≠ '[') (h6 : c ≠ '{') :
    jrun (fuel + 1) .val (c :: t) =
      (match parseJNum (c :: t) with
       | some (n, r) => some (.v (.num n), r)
       | none => none) := by
  have hd : dropWs (c :: t) = c :: t := dropWs_cons_of t hws
  simp only [jrun]
  rw [hd]
  split
  · rename_i heq; injection heq with hh _; exact absurd hh h1
  · rename_i heq; injection heq with hh _; exact absurd hh h2
  · rename_i heq; injection heq with hh _; exact absurd hh h3
  · rename_i heq; injection heq with hh _; exact absurd hh h4
  · rename_i heq; injection heq with hh _; exact absurd hh h5
  · rename_i heq; injection heq with hh _; exact absurd hh h6
  · rfl

theorem one_le_needJ (v : JsonV) : 1 ≤ needJ v := by
  match v with
  | .null => simp [needJ]
  | .bool b => simp [needJ]
  | .num n => simp [needJ]
  | .str s => simp [needJ]
  | .arr [] => simp [needJ]
  | .arr (e :: es) => simp [needJ]
  | .obj [] => simp [needJ]
  | .obj (m :: ms) => simp [needJ]

mutual

/-- The parser inverts the renderer on values (with any delimiter-headed
remainder). -/
theorem jrun_rt_val : ∀ (v : JsonV) (fuel : Nat) (rest : List Char),
    wfJ v → needJ v ≤ fuel → noDigitHead rest →
    jrun fuel .val (printJson v ++ rest) = some (.v v, rest)
  | .null, fuel + 1, rest, _, _, _ => by
    simp [printJson, jrun, dropWs, jsonWs]
  | .bool true, fuel + 1, rest, _, _, _ => by
    simp [printJson, jrun, dropWs, jsonWs]
  | .bool false, fuel + 1, rest, _, _, _ => by
    simp [printJson, jrun, dropWs, jsonWs]
  | .num n, fuel + 1, rest, _, _, hrest => by
    have hnum := parseJNum_intChars n rest hrest
    by_cases hneg : n < 0
    · have harg : printJson (.num n) ++ rest = '-' :: (natDigitChars n.natAbs ++ rest) := by
        simp [printJson, intChars, hneg]
      rw [harg]
      rw [jrun_val_default fuel '-' _ (by decide) (by decide) (by decide) (by decide)
            (by decide) (by decide) (by decide)]
      rw [show '-' :: (natDigitChars n.natAbs ++ rest) = intChars n ++ rest from by
            simp [intChars, hneg]]
      rw [hnum]
    · obtain ⟨hdig, _, hne, _⟩ := natDigitChars_spec n.natAbs
      match hds : natDigitChars n.natAbs with
      | [] => exact absurd hds hne
      | d :: ds =>
        have hd := hdig d (by rw [hds]; simp)
        obtain ⟨hws, hn', ht', hf', hq', hbk', hbc', _, _⟩ := digit_head_facts hd
        have harg : printJson (.num n) ++ rest = d :: (ds ++ rest) := by
          simp [printJson, intChars, hneg, hds]
        rw [harg]
        rw [jrun_val_default fuel d _ hws hn' ht' hf' hq' hbk' hbc']
        rw [show d :: (ds ++ rest) = intChars n ++ rest from by
              simp [intChars, hneg, hds]]
        rw [hnum]
  | .str s, fuel + 1, rest, _, _, _ => by
    have harg : printJson (.str s) ++ rest
        = '"' :: (s.data.flatMap escapeJChar ++ '"' :: rest) := by
      simp [printJson, printJStr]
    have hdw : dropWs ('"' :: (s.data.flatMap escapeJChar ++ '"' :: rest))
        = '"' :: (s.data.flatMap escapeJChar ++ '"' :: rest) := dropWs_cons_of _ (by decide)
    rw [harg]
    simp [jrun, hdw, parseJStrBody_rt]
  | .arr [], fuel + 1, rest, _, _, _ => by
    simp [printJson, printItems, jrun, dropWs, jsonWs]
  | .arr (e :: es), fuel + 1, rest, hwf, hfuel, _ => by
    obtain ⟨c, t, hpr, hws, hbr, _⟩ := printItems_head e es
    have hkey := jrun_rt_items e es fuel [] rest hwf (by
      simp only [needJ] at hfuel; omega)
    have harg : printJson (.arr (e :: es)) ++ rest
        = '[' :: (c :: (t ++ ']' :: rest)) := by
      simp [printJson, hpr]
    have hdw1 : dropWs ('[' :: (c :: (t ++ ']' :: rest)))
        = '[' :: (c :: (t ++ ']' :: rest)) := dropWs_cons_of _ (by decide)
    have hdw2 : dropWs (c :: (t ++ ']' :: rest)) = c :: (t ++ ']' :: rest) :=
      dropWs_cons_of _ hws
    have hback : c :: (t ++ ']' :: rest) = printItems (e :: es) ++ ']' :: rest := by
      simp [hpr]
    rw [harg]
    simp only [jrun]
    rw [hdw1]
    simp only [hdw2]
    split
    · rename_i r2 heq
      injection heq with hh _
      exact absurd hh hbr
    · rw [hback, hkey]
      simp
  | .obj [], fuel + 1, rest, _, _, _ => by
    simp [printJson, printFields, jrun, dropWs, jsonWs]
  | .obj (m :: ms), fuel + 1, rest, hwf, hfuel, _ => by
    have hhead : ∃ t2, printFields (m :: ms) = '"' :: t2 := by
      match m with
      | (k, x) =>
        cases ms <;> simp [printFields, printJStr]
    obtain ⟨t2, hpf⟩ := hhead
    have hwf' : wfM (m :: ms) := hwf.2
    have hnd : ((m :: ms).map Prod.fst).Nodup := hwf.1
    have hkey := jrun_rt_fields m ms fuel [] rest hwf' hnd (by simp) (by
      simp only [needJ] at hfuel; omega)
    have harg : printJson (.obj (m :: ms)) ++ rest
        = '{' :: ('"' :: (t2 ++ '}' :: rest)) := by
      simp [printJson, hpf]
    have hdw1 : dropWs ('{' :: ('"' :: (t2 ++ '}' :: rest)))
        = '{' :: ('"' :: (t2 ++ '}' :: rest)) := dropWs_cons_of _ (by decide)
    have hdw2 : dropWs ('"' :: (t2 ++ '}' :: rest)) = '"' :: (t2 ++ '}' :: rest) :=
      dropWs_cons_of _ (by decide)
    have hback : ('"' : Char) :: (t2 ++ '}' :: rest)
        = printFields (m :: ms) ++ '}' :: rest := by
      simp [hpf]
    rw [harg]
    simp only [jrun]
    rw [hdw1]
    simp only [hdw2]
    split
    all_goals first
      | (rename_i r2 heq
         injection heq with hh _
         exact absurd hh (by decide))
      | (rw [hback, hkey]
         simp)
  | v, 0, rest, _, hfuel, _ => by
    exact absurd hfuel (by have := one_le_needJ v; omega)

/-- The parser inverts the renderer on nonempty item lists. -/
theorem jrun_rt_items : ∀ (e : JsonV) (es : List JsonV) (fuel : Nat)
    (acc : List JsonV) (rest : List Char),
    wfL (e :: es) → needI (e :: es) ≤ fuel →
    jrun fuel (.items acc) (printItems (e :: es) ++ ']' :: rest)
      = some (.es (acc ++ e :: es), rest)
  | e, [], fuel + 1, acc, rest, hwf, hfuel => by
    have hv := jrun_rt_val e fuel (']' :: rest) hwf.1
      (by simp only [needI, needJ] at hfuel ⊢; omega)
      (by simp only [noDigitHead]; decide)
    simp [printItems, jrun, hv, dropWs, jsonWs]
  | e, e2 :: es2, fuel + 1, acc, rest, hwf, hfuel => by
    have harg : printItems (e :: e2 :: es2) ++ ']' :: rest
        = printJson e ++ ',' :: (printItems (e2 :: es2) ++ ']' :: rest) := by
      simp [printItems]
    have hv := jrun_rt_val e fuel (',' :: (printItems (e2 :: es2) ++ ']' :: rest)) hwf.1
      (by simp only [needI] at hfuel; omega)
      (by simp only [noDigitHead]; decide)
    have hrec := jrun_rt_items e2 es2 fuel (acc ++ [e]) rest hwf.2
      (by simp only [needI] at hfuel ⊢; omega)
    rw [harg]
    simp only [jrun, hv]
    rw [dropWs_cons_of _ (by decide)]
    simpa using hrec
  | e, es, 0, acc, rest, _, hfuel => by
    exact absurd hfuel (by simp only [needI]; omega)

/-- The parser inverts the renderer on nonempty member lists, appending to the
accumulated members. -/
theorem jrun_rt_fields : ∀ (m : String × JsonV) (ms : List (String × JsonV)) (fuel : Nat)
    (acc : List (String × JsonV)) (rest : List Char),
    wfM (m :: ms) → (((m :: ms).map Prod.fst).Nodup) →
    (∀ p ∈ acc, ∀ q ∈ m :: ms, p.1 ≠ q.1) → needF (m :: ms) ≤ fuel →
    jrun fuel (.fields acc) (printFields (m :: ms) ++ '}' :: rest)
      = some (.ms (acc ++ m :: ms), rest)
  | (k, x), [], fuel + 1, acc, rest, hwf, hnd, hdisj, hfuel => by
    have harg : printFields ((k, x) :: []) ++ '}' :: rest
        = '"' :: (k.data.flatMap escapeJChar ++ '"' :: (':' :: (printJson x ++ '}' :: rest))) := by
      simp [printFields, printJStr]
    have hv := jrun_rt_val x fuel ('}' :: rest) hwf.1
      (by simp only [needF, needJ] at hfuel ⊢; omega)
      (by simp only [noDigitHead]; decide)
    have hput : putKey acc k x = acc ++ [(k, x)] := by
      apply putKey_fresh
      intro p hp
      have := hdisj p hp (k, x) (by simp)
      simpa using this
    rw [harg]
    simp [jrun, parseJStrBody_rt, hv, hput, dropWs, jsonWs]
  | (k, x), m2 :: ms2, fuel + 1, acc, rest, hwf, hnd, hdisj, hfuel => by
    have harg : printFields ((k, x) :: m2 :: ms2) ++ '}' :: rest
        = '"' :: (k.data.flatMap escapeJChar ++ '"' ::
            (':' :: (printJson x ++ ',' :: (printFields (m2 :: ms2) ++ '}' :: rest)))) := by
      simp [printFields, printJStr]
    have hv := jrun_rt_val x fuel (',' :: (printFields (m2 :: ms2) ++ '}' :: rest)) hwf.1
      (by simp only [needF] at hfuel; omega)
      (by simp only [noDigitHead]; decide)
    have hput : putKey acc k x = acc ++ [(k, x)] := by
      apply putKey_fresh
      intro p hp
      have := hdisj p hp (k, x) (by simp)
      simpa using this
    have hdisj2 : ∀ p ∈ acc ++ [(k, x)], ∀ q ∈ m2 :: ms2, p.1 ≠ q.1 := by
      intro p hp q hq
      rcases List.mem_append.mp hp with h | h
      · exact hdisj p h q (by simp [hq])
      · simp at h
        subst h
        simp only [List.map, List.nodup_cons] at hnd
        intro hkq
        apply hnd.1
        have hmem : q.1 ∈ (m2 :: ms2).map Prod.fst := List.mem_map_of_mem Prod.fst hq
        have hk2 : k = q.1 := hkq
        rw [hk2]
        simpa using hmem
    have hrec := jrun_rt_fields m2 ms2 fuel (acc ++ [(k, x)]) rest hwf.2
      (by simp only [List.map, List.nodup_cons] at hnd ⊢; exact hnd.2)
      hdisj2
      (by simp only [needF] at hfuel ⊢; omega)
    rw [harg]
    simp [jrun, parseJStrBody_rt, hv, hput, dropWs, jsonWs]
    simpa using hrec
  | m, ms, 0, acc, rest, _, _, _, hfuel => by
    exact absurd hfuel (by simp only [needF]; omega)

end

theorem one_le_printJson_len (v : JsonV) : 1 ≤ (printJson v).length := by
  obtain ⟨c, t, hpr, -, -, -⟩ := printJson_head v
  simp [hpr]

mutual

/-- The fuel measure is within twice the printed length. -/
theorem needJ_le_print : ∀ v : JsonV, needJ v ≤ 2 * (printJson v).length
  | .null => by simp [needJ, printJson]
  | .bool true => by simp [needJ, printJson]
  | .bool false => by simp [needJ, printJson]
  | .num n => by
    have := one_le_printJson_len (.num n)
    simp only [needJ]
    omega
  | .str s => by
    have := one_le_printJson_len (.str s)
    simp only [needJ]
    omega
  | .arr [] => by simp [needJ, printJson, printItems]
  | .arr (e :: es) => by
    have h := needI_le_print e es
    simp only [needJ, printJson, List.length_cons, List.length_append]
    omega
  | .obj [] => by simp [needJ, printJson, printFields]
  | .obj (m :: ms) => by
    have h := needF_le_print m ms
    simp only [needJ, printJson, List.length_cons, List.length_append]
    omega
termination_by v => sizeOf v

/-- Fuel measure bound for nonempty item lists. -/
theorem needI_le_print : ∀ (e : JsonV) (es : List JsonV),
    needI (e :: es) ≤ 2 * (printItems (e :: es)).length + 2
  | e, [] => by
    have h := needJ_le_print e
    simp only [needI, printItems]
    omega
  | e, e2 :: es2 => by
    have h1 := needJ_le_print e
    have h2 := needI_le_print e2 es2
    simp only [needI] at h2
    simp only [needI, printItems, List.length_append, List.length_cons]
    omega
termination_by e es => sizeOf e + sizeOf es

/-- Fuel measure bound for nonempty member lists. -/
theorem needF_le_print : ∀ (m : String × JsonV) (ms : List (String × JsonV)),
    needF (m :: ms) ≤ 2 * (printFields (m :: ms)).length + 2
  | (k, x), [] => by
    have h := needJ_le_print x
    simp only [needF, printFields, List.length_append, List.length_cons]
    omega
  | (k, x), m2 :: ms2 => by
    have h1 := needJ_le_print x
    have h2 := needF_le_print m2 ms2
    simp only [needF] at h2
    simp only [needF, printFields, List.length_append, List.length_cons]
    omega
termination_by m ms => sizeOf m + sizeOf ms

end


/-! ### `jsonParse` produces well-formed values -/

theorem wfL_snoc {a : List JsonV} {x : JsonV} (ha : wfL a) (hx : wfJ x) :
    wfL (a ++ [x]) := by
  induction a with
  | nil => simpa [wfL] using hx
  | cons e es ih =>
    simp only [wfL] at ha ⊢
    exact ⟨ha.1, ih ha.2⟩

theorem putKey_wfM {acc : List (String × JsonV)} {k : String} {x : JsonV}
    (ha : wfM acc) (hx : wfJ x) : wfM (putKey acc k x) := by
  induction acc with
  | nil => simpa [putKey, wfM] using hx
  | cons m ms ih =>
    match m with
    | (k0, v0) =>
      simp only [wfM] at ha
      by_cases hk : k0 = k
      · simp only [putKey, if_pos hk, wfM]
        exact ⟨hx, ha.2⟩
      · simp only [putKey, if_neg hk, wfM]
        exact ⟨ha.1, ih ha.2⟩

theorem putKey_mem {ms : List (String × JsonV)} {k : String} {x : JsonV}
    {p : String × JsonV} (hp : p ∈ putKey ms k x) : p ∈ ms ∨ p = (k, x) := by
  induction ms with
  | nil => simpa [putKey] using hp
  | cons m ms ih =>
    match m with
    | (k0, v0) =>
      by_cases hk : k0 = k
      · simp only [putKey, if_pos hk] at hp
        rcases List.mem_cons.mp hp with h | h
        · subst hk; right; simpa using h
        · left; exact List.mem_cons_of_mem _ h
      · simp only [putKey, if_neg hk] at hp
        rcases List.mem_cons.mp hp with h | h
        · left; simp [h]
        · rcases ih h with h2 | h2
          · left; exact List.mem_cons_of_mem _ h2
          · right; exact h2

theorem putKey_keys_nodup {acc : List (String × JsonV)} {k : String} {x : JsonV}
    (hnd : (acc.map Prod.fst).Nodup) :
    ((putKey acc k x).map Prod.fst).Nodup := by
  induction acc with
  | nil => simp [putKey]
  | cons m ms ih =>
    match m with
    | (k0, v0) =>
      simp only [List.map, List.nodup_cons] at hnd
      by_cases hk : k0 = k
      · simp only [putKey, if_pos hk, List.map, List.nodup_cons]
        exact hnd
      · simp only [putKey, if_neg hk, List.map, List.nodup_cons]
        constructor
        · intro hmem
          rcases List.mem_map.mp hmem with ⟨p, hp, hpk⟩
          rcases putKey_mem hp with h | h
          · exact hnd.1 (by rw [← hpk]; exact List.mem_map_of_mem Prod.fst h)
          · subst h
            simp only at hpk
            exact hk hpk.symm
        · exact ih hnd.2

/-- Everything `jrun` accepts is well-formed (with well-formed accumulators). -/
theorem jrun_wf : ∀ fuel : Nat,
    (∀ cs x r, jrun fuel .val cs = some (.v x, r) → wfJ x) ∧
    (∀ acc cs xs r, wfL acc → jrun fuel (.items acc) cs = some (.es xs, r) → wfL xs) ∧
    (∀ acc cs ms r, wfM acc → (acc.map Prod.fst).Nodup →
      jrun fuel (.fields acc) cs = some (.ms ms, r) →
      wfM ms ∧ (ms.map Prod.fst).Nodup) := by
  intro fuel
  induction fuel with
  | zero =>
    refine ⟨?_, ?_, ?_⟩
    · intro cs x r h; simp [jrun] at h
    · intro acc cs xs r hacc h; simp [jrun] at h
    · intro acc cs ms r h1 h2 h; simp [jrun] at h
  | succ fuel ih =>
    obtain ⟨ihV, ihI, ihF⟩ := ih
    refine ⟨?_, ?_, ?_⟩
    · intro cs x r h
      simp only [jrun] at h
      split at h
      · simp only [Option.some.injEq, Prod.mk.injEq] at h
        obtain ⟨h1, -⟩ := h
        injection h1 with h1
        subst h1
        simp [wfJ]
      · simp only [Option.some.injEq, Prod.mk.injEq] at h
        obtain ⟨h1, -⟩ := h
        injection h1 with h1
        subst h1
        simp [wfJ]
      · simp only [Option.some.injEq, Prod.mk.injEq] at h
        obtain ⟨h1, -⟩ := h
        injection h1 with h1
        subst h1
        simp [wfJ]
      · split at h
        · simp only [Option.some.injEq, Prod.mk.injEq] at h
          obtain ⟨h1, -⟩ := h
          injection h1 with h1
          subst h1
          simp [wfJ]
        · exact absurd h (by simp)
      · split at h
        · simp only [Option.some.injEq, Prod.mk.injEq] at h
          obtain ⟨h1, -⟩ := h
          injection h1 with h1
          subst h1
          simp [wfJ, wfL]
        · split at h
          · rename_i xs2 r2 heq
            simp only [Option.some.injEq, Prod.mk.injEq] at h
            obtain ⟨h1, -⟩ := h
            injection h1 with h1
            subst h1
            have hxs := ihI [] _ _ _ (by simp [wfL]) heq
            simpa [wfJ] using hxs
          · exact absurd h (by simp)
      · split at h
        · simp only [Option.some.injEq, Prod.mk.injEq] at h
          obtain ⟨h1, -⟩ := h
          injection h1 with h1
          subst h1
          simp [wfJ, wfM]
        · split at h
          · rename_i xs2 r2 heq
            simp only [Option.some.injEq, Prod.mk.injEq] at h
            obtain ⟨h1, -⟩ := h
            injection h1 with h1
            subst h1
            have hxs := ihF [] _ _ _ (by simp [wfM]) (by simp) heq
            simp [wfJ]
            exact ⟨hxs.2, hxs.1⟩
          · exact absurd h (by simp)
      · split at h
        · simp only [Option.some.injEq, Prod.mk.injEq] at h
          obtain ⟨h1, -⟩ := h
          injection h1 with h1
          subst h1
          simp [wfJ]
        · exact absurd h (by simp)
    · intro acc cs xs r hacc h
      simp only [jrun] at h
      split at h
      · rename_i x2 r2 heq
        have hx2 := ihV _ _ _ heq
        split at h
        · exact ihI _ _ _ _ (wfL_snoc hacc hx2) h
        · simp only [Option.some.injEq, Prod.mk.injEq] at h
          obtain ⟨h1, -⟩ := h
          injection h1 with h1
          subst h1
          exact wfL_snoc hacc hx2
        · exact absurd h (by simp)
      · exact absurd h (by simp)
    · intro acc cs ms r hacc hnd h
      simp only [jrun] at h
      split at h
      · split at h
        · exact absurd h (by simp)
        · rename_i kbody r1 heq1
          split at h
          · split at h
            · rename_i x2 r3 heq2
              have hx2 := ihV _ _ _ heq2
              split at h
              · exact ihF _ _ _ _ (putKey_wfM hacc hx2) (putKey_keys_nodup hnd) h
              · simp only [Option.some.injEq, Prod.mk.injEq] at h
                obtain ⟨h1, -⟩ := h
                injection h1 with h1
                subst h1
                exact ⟨putKey_wfM hacc hx2, putKey_keys_nodup hnd⟩
              · exact absurd h (by simp)
            · exact absurd h (by simp)
          · exact absurd h (by simp)
      · exact absurd h (by simp)

/-- Everything `jsonParse` accepts is well-formed. -/
theorem jsonParse_wf {s : String} {v : JsonV} (h : jsonParse s = some v) : wfJ v := by
  simp only [jsonParse] at h
  split at h
  · rename_i x r heq
    split at h
    · simp only [Option.some.injEq] at h
      subst h
      exact (jrun_wf _).1 _ _ _ heq
    · exact absurd h (by simp)
  · exact absurd h (by simp)

/-- The codec round-trip: re-parsing a stringified well-formed value recovers
it exactly (the `JSON.parse ∘ JSON.stringify` identity). -/
theorem jsonParse_stringify (v : JsonV) (h : wfJ v) :
    jsonParse (jsonStringify v) = some v := by
  have hdata : (jsonStringify v).data = printJson v := rfl
  have hfuel : needJ v ≤ 2 * (printJson v).length + 2 := by
    have := needJ_le_print v
    omega
  have hrt := jrun_rt_val v (2 * (printJson v).length + 2) [] h hfuel
    (by simp [noDigitHead])
  rw [List.append_nil] at hrt
  simp only [jsonParse, hdata, List.length_append]
  rw [show (printJson v).length = (printJson v).length from rfl] at hrt
  rw [hrt]
  simp [dropWs]

/-- Round trip through a parse: whatever `jsonParse` produces survives a
stringify/re-parse cycle unchanged. -/
theorem jsonParse_roundtrip {s : String} {v : JsonV} (h : jsonParse s = some v) :
    jsonParse (jsonStringify v) = some v :=
  jsonParse_stringify v (jsonParse_wf h)

/-! ### Harmony wire protocol: the tool-call scanner

The decoders of `harmony-official.ts` and `harmony-integration.ts` extract
tool calls with the global regex
`<\|tool_call\|>(\w+)\(([^)]*)\)<\|end_tool_call\|>`.  Because `\w+` and
`[^)]*` cannot backtrack productively here, the regex is equivalent to the
deterministic scanner below, which also returns the residual text
(`content.replace(pattern, "")`). -/

/-- Strip a literal prefix, returning the remainder on success. -/
def stripPre : List Char → List Char → Option (List Char)
  | [], cs => some cs
  | _ :: _, [] => none
  | p :: ps, c :: cs => if c = p then stripPre ps cs else none

/-- JavaScript `\w`: ASCII letters, digits and underscore. -/
def wordChar (c : Char) : Bool :=
  ('a' ≤ c && c ≤ 'z') || ('A' ≤ c && c ≤ 'Z') || ('0' ≤ c && c ≤ '9') || c = '_'

/-- JavaScript `\s`, restricted to its ASCII members. -/
def jsWs (c : Char) : Bool :=
  c = ' ' || c = '\t' || c = '\n' || c = '\r' || c = '\x0b' || c = '\x0c'

/-- The opening tool-call tag. -/
def tcOpen : List Char := "<|tool_call|>".data

/-- The closing tool-call tag. -/
def tcEnd : List Char := "<|end_tool_call|>".data

/-- Try to match one complete tool-call marker at the current position:
open tag, function name (`\w+`), parenthesised argument text (`[^)]*`),
close tag.  Returns the name, the argument text and the remainder. -/
def tryToolCallAt (cs : List Char) : Option (String × String × List Char) :=
  match stripPre tcOpen cs with
  | none => none
  | some r1 =>
    let nameP := r1.span wordChar
    if nameP.1.isEmpty then none
    else
      match nameP.2 with
      | '(' :: r2 =>
        let argsP := r2.span (fun c => c != ')')
        match argsP.2 with
        | ')' :: r3 =>
          match stripPre tcEnd r3 with
          | some r4 => some (String.mk nameP.1, String.mk argsP.1, r4)
          | none => none
        | _ => none
      | _ => none

/-- Scan the whole text for tool-call markers, left to right and
non-overlapping, collecting `(name, argsText)` pairs and the residual text
with every matched span deleted.  One unit of fuel is spent per input
character, so `length + 1` always suffices. -/
def scanHarmony : Nat → List Char → List (String × String) × List Char
  | 0, cs => ([], cs)
  | _ + 1, [] => ([], [])
  | fuel + 1, c :: cs =>
    match tryToolCallAt (c :: cs) with
    | some (nm, args, rem) =>
      let p := scanHarmony fuel rem
      ((nm, args) :: p.1, p.2)
    | none =>
      let p := scanHarmony fuel cs
      (p.1, c :: p.2)

/-- All `(name, argsText)` tool-call matches of a response text, in order. -/
def extractToolCalls (content : String) : List (String × String) :=
  (scanHarmony (content.data.length + 1) content.data).1

/-- The response text with every matched tool-call span removed
(`content.replace(toolCallPattern, "")`). -/
def stripToolCalls (content : String) : List Char :=
  (scanHarmony (content.data.length + 1) content.data).2

example : extractToolCalls
    "pre <|tool_call|>get_weather(\x7b\"location\": \"Paris\"\x7d)<|end_tool_call|> post"
    = [("get_weather", "\x7b\"location\": \"Paris\"\x7d")] := by rfl

example : String.mk (stripToolCalls
    "pre <|tool_call|>get_weather(\x7b\"location\": \"Paris\"\x7d)<|end_tool_call|> post")
    = "pre  post" := by rfl

example : extractToolCalls "<|tool_call|>broken(<|end_tool_call|>" = [] := by rfl

/-! ### The best-effort JSON repair chain of `harmony-official.ts` -/

/-- Literal global string replacement (`String.replace` with a `g`-flagged
literal pattern): left-to-right, non-overlapping, replacement not rescanned. -/
def replaceAllL (pat rep : List Char) : Nat → List Char → List Char
  | 0, cs => cs
  | _ + 1, [] => []
  | fuel + 1, c :: cs =>
    match stripPre pat (c :: cs) with
    | some rem => rep ++ replaceAllL pat rep fuel rem
    | none => c :: replaceAllL pat rep fuel cs

/-- Drop JavaScript whitespace from both ends (`String.trim`). -/
def trimL (cs : List Char) : List Char :=
  ((cs.dropWhile jsWs).reverse.dropWhile jsWs).reverse

/-- Global replace of `([{,]\s*)(\w+):` by `$1"$2":` — quote bare object
keys. -/
def fixKeysQuote : Nat → List Char → List Char
  | 0, cs => cs
  | _ + 1, [] => []
  | fuel + 1, c :: cs =>
    if c = '{' || c = ',' then
      let w := cs.span jsWs
      let nm := w.2.span wordChar
      match nm.1 with
      | [] => c :: fixKeysQuote fuel cs
      | n0 :: nrest =>
        match nm.2 with
        | ':' :: r2 =>
          (c :: w.1) ++ ('"' :: (n0 :: nrest) ++ ['"', ':']) ++ fixKeysQuote fuel r2
        | _ => c :: fixKeysQuote fuel cs
    else c :: fixKeysQuote fuel cs

/-- First/last character class of the bare-value group:
`[^",{\[\]}\s]`. -/
def bareEdge (c : Char) : Bool :=
  !(c = '"' || c = ',' || c = '{' || c = '[' || c = ']' || c = '}') && !(jsWs c)

/-- Middle character class of the bare-value group: `[^",{\[\]]`
(closing brace and whitespace allowed). -/
def bareMid (c : Char) : Bool :=
  !(c = '"' || c = ',' || c = '{' || c = '[' || c = ']')

/-- After the group: `\s*([,}])`. -/
def delimAfter (cs : List Char) : Option (Char × List Char) :=
  match (cs.span jsWs).2 with
  | c :: rest => if c = ',' || c = '}' then some (c, rest) else none
  | [] => none

/-- Backtracking of the greedy middle `[^",{\[\]]*`: shrink the matched run
from the right until its last character is in the edge class and a delimiter
follows.  `revRun` is the remaining candidate run, reversed. -/
def shrinkRun : List Char → List Char → Option (List Char × Char × List Char)
  | [], _ => none
  | lastC :: revPre, afterPart =>
    if bareEdge lastC then
      match delimAfter afterPart with
      | some (d, rest) => some ((lastC :: revPre).reverse, d, rest)
      | none => shrinkRun revPre (lastC :: afterPart)
    else shrinkRun revPre (lastC :: afterPart)

/-- Global replace of `:\s*([^",{\[\]}\s][^",{\[\]]*[^",{\[\]}\s])\s*([,}])`
by `:"$1"$2` — quote bare scalar values (the group needs at least two
characters). -/
def fixBareValues : Nat → List Char → List Char
  | 0, cs => cs
  | _ + 1, [] => []
  | fuel + 1, c :: cs =>
    if c = ':' then
      let w := cs.span jsWs
      match w.2 with
      | a :: rest =>
        if bareEdge a then
          let runP := rest.span bareMid
          match shrinkRun runP.1.reverse runP.2 with
          | some (chosen, d, after2) =>
            (':' :: '"' :: (a :: chosen)) ++ ('"' :: [d]) ++ fixBareValues fuel after2
          | none => c :: fixBareValues fuel cs
        else c :: fixBareValues fuel cs
      | [] => c :: fixBareValues fuel cs
    else c :: fixBareValues fuel cs

/-- Global replace of `,\s*X` by `X` for a closing character `X` — strip
trailing separators. -/
def replComma (close : Char) : Nat → List Char → List Char
  | 0, cs => cs
  | _ + 1, [] => []
  | fuel + 1, c :: cs =>
    if c = ',' then
      match (cs.span jsWs).2 with
      | b :: rest2 =>
        if b = close then close :: replComma close fuel rest2
        else c :: replComma close fuel cs
      | [] => c :: replComma close fuel cs
    else c :: replComma close fuel cs

/-- The `harmony-official.ts` best-effort argument repair: trim, quote bare
keys, quote bare scalar values, strip trailing commas before `}` and `]`. -/
def fixArgs (argsText : String) : String :=
  let t := trimL argsText.data
  let s1 := fixKeysQuote (t.length + 1) t
  let s2 := fixBareValues (s1.length + 1) s1
  let s3 := replComma '}' (s2.length + 1) s2
  let s4 := replComma ']' (s3.length + 1) s3
  String.mk s4

example : fixArgs "\x7bquery: test\x7d" = "\x7b\"query\":\"test\"\x7d" := by rfl

example : jsonParse (fixArgs "\x7bquery: test\x7d")
    = some (.obj [("query", .str "test")]) := by rfl

example : fixArgs "\x7b\"a\": 1,\x7d" = "\x7b\"a\": 1\x7d" := by rfl

/-! ### The Harmony decoders (`parseHarmonyResponse`) -/

/-- An OpenAI-shaped tool-call function payload. -/
structure OAFunction where
  name : String
  arguments : String
deriving Repr, DecidableEq

/-- An OpenAI-shaped tool call. -/
structure OAToolCall where
  id : String
  type : String
  function : OAFunction
deriving Repr, DecidableEq

/-- The decoder's finish reason. -/
inductive FinishReason where
  | stop : FinishReason
  | tool_calls : FinishReason
deriving Repr, DecidableEq

/-- The decoded Harmony response.  `toolCalls` is `none` when no marker was
found (the source returns `undefined` in that case). -/
structure ParsedHarmonyResponse where
  content : String
  toolCalls : Option (List OAToolCall)
  finishReason : FinishReason
deriving Repr, DecidableEq

/-- Remove the leading `assistant` marker and following whitespace
(`/^assistant\s*/`). -/
def stripLeadingAssistant (cs : List Char) : List Char :=
  match stripPre "assistant".data cs with
  | some r => r.dropWhile jsWs
  | none => cs

namespace HarmonyOfficial

/-- The `harmony-official.ts` argument ladder: keep a strict parse, otherwise
parse the best-effort repair, otherwise fall back to the empty object; empty
or blank argument text short-circuits to the empty object. -/
def finalArgsString (argsText : String) : String :=
  if argsText.data.all jsWs then "\x7b\x7d"
  else
    match jsonParse argsText with
    | some v => jsonStringify v
    | none =>
      match jsonParse (fixArgs argsText) with
      | some v => jsonStringify v
      | none => "\x7b\x7d"

/-- The `harmony-official.ts` decoder: every regex match becomes exactly one
tool call (ids drawn from `idGen`, the model of `Date.now()`/`Math.random()`
id synthesis); matched spans and protocol tags are stripped from the clean
content; the finish reason reports whether any call was found.  A total
function: decoding never throws. -/
def parseHarmonyResponse (idGen : Nat → String) (content : String) :
    ParsedHarmonyResponse :=
  let ms := extractToolCalls content
  let toolCalls := ms.enum.map (fun p =>
    { id := idGen p.1, type := "function",
      function := { name := p.2.1, arguments := finalArgsString p.2.2 } })
  let c1 := stripToolCalls content
  let c2 := replaceAllL "<|start|>".data [] (c1.length + 1) c1
  let c3 := replaceAllL "<|end|>".data [] (c2.length + 1) c2
  let c4 := replaceAllL "<|message|>".data [] (c3.length + 1) c3
  let c5 := stripLeadingAssistant c4
  { content := String.mk (trimL c5),
    toolCalls := if toolCalls.isEmpty then none else some toolCalls,
    finishReason := if toolCalls.isEmpty then .stop else .tool_calls }

end HarmonyOfficial

namespace HarmonyIntegration

/-- The `harmony-integration.ts` argument handling: a strict parse is
re-serialised; empty argument text becomes the empty object; otherwise the
raw malformed text is kept verbatim (`argsString || "{}"` in the catch). -/
def rawArgsString (argsText : String) : String :=
  if argsText.isEmpty then jsonStringify (.obj [])
  else
    match jsonParse argsText with
    | some v => jsonStringify v
    | none => argsText

/-- The `harmony-integration.ts` decoder: same scanner, no repair step, raw
text fallback for unparseable arguments. -/
def parseHarmonyResponse (idGen : Nat → String) (content : String) :
    ParsedHarmonyResponse :=
  let ms := extractToolCalls content
  let toolCalls := ms.enum.map (fun p =>
    { id := idGen p.1, type := "function",
      function := { name := p.2.1, arguments := rawArgsString p.2.2 } })
  let c1 := trimL (stripToolCalls content)
  let c2 := replaceAllL "<|assistant|>".data [] (c1.length + 1) c1
  let c3 := replaceAllL "<|end|>".data [] (c2.length + 1) c2
  let c4 := replaceAllL "<|system|>".data [] (c3.length + 1) c3
  let c5 := replaceAllL "<|user|>".data [] (c4.length + 1) c4
  let c6 := replaceAllL "<|tool_result|>".data [] (c5.length + 1) c5
  { content := String.mk (trimL c6),
    toolCalls := if toolCalls.isEmpty then none else some toolCalls,
    finishReason := if toolCalls.isEmpty then .stop else .tool_calls }

end HarmonyIntegration

example :
    (HarmonyOfficial.parseHarmonyResponse (fun i => s!"call_{i}")
      "I will check. <|tool_call|>get_weather(\x7b\"location\": \"Paris\"\x7d)<|end_tool_call|>")
    = ⟨"I will check.",
       some [⟨"call_0", "function", ⟨"get_weather", "\x7b\"location\":\"Paris\"\x7d"⟩⟩],
       .tool_calls⟩ := by rfl

example :
    (HarmonyOfficial.parseHarmonyResponse (fun i => s!"call_{i}")
      "<|tool_call|>web_search(\x7bquery: test\x7d)<|end_tool_call|>")
    = ⟨"", some [⟨"call_0", "function", ⟨"web_search", "\x7b\"query\":\"test\"\x7d"⟩⟩],
       .tool_calls⟩ := by rfl

example :
    (HarmonyOfficial.parseHarmonyResponse (fun i => s!"call_{i}")
      "<|tool_call|>bad(not good json)<|end_tool_call|> hello")
    = ⟨"hello", some [⟨"call_0", "function", ⟨"bad", "\x7b\x7d"⟩⟩], .tool_calls⟩ := by rfl

/-! ### Decode-layer lemmas -/

theorem jrun_val_allWs : ∀ (fuel : Nat) (cs : List Char),
    (∀ c ∈ cs, jsWs c = true) → jrun fuel .val cs = none := by
  intro fuel cs h
  match fuel with
  | 0 => rfl
  | fuel + 1 =>
    have hdw : dropWs cs = [] ∨
        ∃ c t, dropWs cs = c :: t ∧ (c = '\x0b' ∨ c = '\x0c') := by
      clear fuel
      induction cs with
      | nil => left; rfl
      | cons c t ih =>
        have hc : jsWs c = true := h c (by simp)
        by_cases hj : jsonWs c = true
        · rcases ih (fun x hx => h x (by simp [hx])) with h1 | h1
          · left; simpa [dropWs, hj] using h1
          · right; simpa [dropWs, hj] using h1
        · right
          refine ⟨c, t, by simp [dropWs, hj], ?_⟩
          revert hc hj
          simp only [jsWs, jsonWs, Bool.or_eq_true, decide_eq_true_eq,
            beq_iff_eq, Bool.not_eq_true]
          intro hc hj
          rcases hc with h1 | h1 | h1 | h1 | h1 | h1 <;> simp_all
    rcases hdw with h1 | ⟨c, t, h1, h2⟩
    · simp [jrun, h1, parseJNum, parseJNat, takeDigitRun]
    · rcases h2 with h2 | h2 <;>
        (subst h2; simp [jrun, h1, parseJNum, parseJNat, takeDigitRun, isDigitCh])

theorem jsonParse_allWs {s : String} (h : ∀ c ∈ s.data, jsWs c = true) :
    jsonParse s = none := by
  simp [jsonParse, jrun_val_allWs _ _ h]

theorem fixArgs_allWs {s : String} (h : ∀ c ∈ s.data, jsWs c = true) :
    fixArgs s = "" := by
  have ht : trimL s.data = [] := by
    have h1 : s.data.dropWhile jsWs = [] := List.dropWhile_eq_nil_iff.mpr h
    simp [trimL, h1]
  simp [fixArgs, ht, fixKeysQuote, fixBareValues, replComma]

/-- The blank-argument short-circuit of the official decoder coincides with
the full fallback ladder: on blank text both the strict parse and the
repaired parse fail, so the ladder also lands on the empty object. -/
theorem finalArgsString_ladder (argsText : String) :
    HarmonyOfficial.finalArgsString argsText
      = (match jsonParse argsText with
         | some v => jsonStringify v
         | none =>
           match jsonParse (fixArgs argsText) with
           | some v => jsonStringify v
           | none => "\x7b\x7d") := by
  unfold HarmonyOfficial.finalArgsString
  split
  · rename_i hws
    have hall : ∀ c ∈ argsText.data, jsWs c = true := by
      intro c hc
      exact (List.all_eq_true.mp hws) c hc
    rw [jsonParse_allWs hall, fixArgs_allWs hall]
    rfl
  · rfl

theorem optListD {α : Type} (l : List α) :
    (if l.isEmpty then (none : Option (List α)) else some l).getD [] = l := by
  cases l <;> simp

theorem enum_map_get? {α β : Type} (f : Nat × α → β) (l : List α) (i : Nat) :
    ((l.enum.map f).get? i) = (l.get? i).map (fun a => f (i, a)) := by
  rw [List.get?_map]
  rw [show l.enum.get? i = (l.get? i).map fun a => (i, a) from by
        simp [List.enum_get?]]
  cases l.get? i <;> simp

/-- **C2.**  For every response text, decoding never throws (the decoder is a
total function) and never drops a matched tool-call marker: the decoded
tool-call list has exactly one entry per match of the calling-convention
pattern, in order; the i-th entry carries the matched function name, and its
arguments are the strict JSON parse of the matched argument text when that
succeeds, otherwise the parse of the best-effort-repaired text, otherwise the
empty object — the call is surfaced with empty arguments rather than
omitted.  (Stated for the `harmony-official.ts` decoder, whose repair ladder
the specification describes.) -/
theorem harmony_decode_never_drops (idGen : Nat → String) (content : String) :
    ((HarmonyOfficial.parseHarmonyResponse idGen content).toolCalls.getD []).length
        = (extractToolCalls content).length ∧
    (HarmonyOfficial.parseHarmonyResponse idGen content).finishReason
        = (if extractToolCalls content = [] then .stop else .tool_calls) ∧
    (∀ i, (((HarmonyOfficial.parseHarmonyResponse idGen content).toolCalls.getD []).get? i).map
            (fun tc => (tc.function.name, tc.function.arguments))
        = ((extractToolCalls content).get? i).map (fun m => (m.1,
            match jsonParse m.2 with
            | some v => jsonStringify v
            | none =>
              match jsonParse (fixArgs m.2) with
              | some v => jsonStringify v
              | none => "\x7b\x7d"))) := by
  unfold HarmonyOfficial.parseHarmonyResponse
  simp only [optListD]
  refine ⟨by simp, ?_, ?_⟩
  · cases hE : extractToolCalls content <;> simp [hE]
  · intro i
    rw [enum_map_get?]
    cases hmi : (extractToolCalls content).get? i with
    | none => simp
    | some m =>
      obtain ⟨nm, args⟩ := m
      simp only [Option.map]
      rw [finalArgsString_ladder]

/-- **C9.**  For every tool-call match whose argument text strictly parses as
a JSON object, the argument string stored in the decoded ToolCall
round-trips: parsing it back yields exactly the object originally parsed
from the matched argument text. -/
theorem harmony_decode_args_roundtrip (idGen : Nat → String) (content : String)
    (i : Nat) (nm args : String) (v : JsonV)
    (hm : (extractToolCalls content).get? i = some (nm, args))
    (hp : jsonParse args = some v)
    (_hobj : ∃ kvs, v = .obj kvs) :
    ∃ tc, ((HarmonyOfficial.parseHarmonyResponse idGen content).toolCalls.getD []).get? i
        = some tc ∧
      tc.function.name = nm ∧
      jsonParse tc.function.arguments = some v := by
  have hargs : HarmonyOfficial.finalArgsString args = jsonStringify v := by
    rw [finalArgsString_ladder, hp]
  unfold HarmonyOfficial.parseHarmonyResponse
  simp only [optListD]
  rw [enum_map_get?, hm]
  refine ⟨_, rfl, rfl, ?_⟩
  simp only [hargs]
  exact jsonParse_roundtrip hp

/-- **C10.**  Decoding is deterministic modulo the generated call ids: two
runs with different id generators agree on the clean content, the finish
reason, the number of tool calls, and every call's function name and argument
string — for both decoder variants in the repository. -/
theorem harmony_decode_deterministic (g1 g2 : Nat → String) (content : String) :
    ((HarmonyOfficial.parseHarmonyResponse g1 content).content
        = (HarmonyOfficial.parseHarmonyResponse g2 content).content ∧
     (HarmonyOfficial.parseHarmonyResponse g1 content).finishReason
        = (HarmonyOfficial.parseHarmonyResponse g2 content).finishReason ∧
     ((HarmonyOfficial.parseHarmonyResponse g1 content).toolCalls.getD []).length
        = ((HarmonyOfficial.parseHarmonyResponse g2 content).toolCalls.getD []).length ∧
     ∀ i, (((HarmonyOfficial.parseHarmonyResponse g1 content).toolCalls.getD []).get? i).map
            (fun tc => tc.function)
        = (((HarmonyOfficial.parseHarmonyResponse g2 content).toolCalls.getD []).get? i).map
            (fun tc => tc.function)) ∧
    ((HarmonyIntegration.parseHarmonyResponse g1 content).content
        = (HarmonyIntegration.parseHarmonyResponse g2 content).content ∧
     (HarmonyIntegration.parseHarmonyResponse g1 content).finishReason
        = (HarmonyIntegration.parseHarmonyResponse g2 content).finishReason ∧
     ((HarmonyIntegration.parseHarmonyResponse g1 content).toolCalls.getD []).length
        = ((HarmonyIntegration.parseHarmonyResponse g2 content).toolCalls.getD []).length ∧
     ∀ i, (((HarmonyIntegration.parseHarmonyResponse g1 content).toolCalls.getD []).get? i).map
            (fun tc => tc.function)
        = (((HarmonyIntegration.parseHarmonyResponse g2 content).toolCalls.getD []).get? i).map
            (fun tc => tc.function)) := by
  constructor
  · unfold HarmonyOfficial.parseHarmonyResponse
    simp only [optListD]
    refine ⟨?_, ?_, ?_, ?_⟩
    · trivial
    · cases hE : extractToolCalls content <;> simp [hE]
    · simp
    · intro i
      rw [enum_map_get?, enum_map_get?]
      cases (extractToolCalls content).get? i <;> simp
  · unfold HarmonyIntegration.parseHarmonyResponse
    simp only [optListD]
    refine ⟨?_, ?_, ?_, ?_⟩
    · trivial
    · cases hE : extractToolCalls content <;> simp [hE]
    · simp
    · intro i
      rw [enum_map_get?, enum_map_get?]
      cases (extractToolCalls content).get? i <;> simp

/-- Witness for the C9 round-trip theorem at a concrete decoded call. -/
theorem harmony_decode_args_roundtrip_witness :
    ∃ tc, ((HarmonyOfficial.parseHarmonyResponse (fun i => s!"call_{i}")
        "<|tool_call|>get_weather(\x7b\"location\": \"Paris\"\x7d)<|end_tool_call|>").toolCalls.getD
          []).get? 0 = some tc ∧
      tc.function.name = "get_weather" ∧
      jsonParse tc.function.arguments = some (.obj [("location", .str "Paris")]) :=
  harmony_decode_args_roundtrip (fun i => s!"call_{i}")
    "<|tool_call|>get_weather(\x7b\"location\": \"Paris\"\x7d)<|end_tool_call|>"
    0 "get_weather" "\x7b\"location\": \"Paris\"\x7d"
    (.obj [("location", .str "Paris")]) (by rfl) (by rfl) ⟨_, rfl⟩

/-! ### The OpenAI message model and the Harmony encoder -/

/-- Message roles (the fixed enumeration of `types.ts`). -/
inductive MsgRole where
  | system : MsgRole
  | user : MsgRole
  | assistant : MsgRole
  | tool : MsgRole
deriving Repr, DecidableEq

/-- One element of a structured-content array (`{ type, text? }`). -/
structure ContentPart where
  type : String
  text : Option String
deriving Repr, DecidableEq

/-- A message's `content`: a string, a structured-parts array, or `null`. -/
inductive MsgContent where
  | str (s : String) : MsgContent
  | parts (ps : List ContentPart) : MsgContent
  | nullc : MsgContent
deriving Repr, DecidableEq

/-- An OpenAI-shaped chat message. -/
structure OAMessage where
  role : MsgRole
  content : MsgContent
  name : Option String := none
  tool_calls : List OAToolCall := []
  tool_call_id : Option String := none
deriving Repr, DecidableEq

/-- A tool definition as carried in a request. -/
structure OAToolFunction where
  name : String
  description : Option String := none
  parameters : Option JsonV := none
deriving Repr

/-- An OpenAI-shaped tool entry. -/
structure OATool where
  type : String
  function : OAToolFunction
deriving Repr

/-- A `tool_choice` directive: a plain string or `{ type, function? }`. -/
inductive ToolChoice where
  | str (s : String) : ToolChoice
  | obj (type : String) (fname : Option String) : ToolChoice
deriving Repr, DecidableEq

/-- `typeof toolChoice === "string" ? toolChoice : toolChoice?.type`. -/
def toolChoiceString : Option ToolChoice → Option String
  | none => none
  | some (.str s) => some s
  | some (.obj t _) => some t

/-- JavaScript truthiness of a JSON value. -/
def jsTruthy : JsonV → Bool
  | .null => false
  | .bool b => b
  | .num n => n != 0
  | .str s => !s.isEmpty
  | .arr _ => true
  | .obj _ => true

/-- The text of a message content, as the encoder extracts it: strings
verbatim, structured parts joined over their `text` fields, `null` as the
empty string. -/
def contentText : MsgContent → String
  | .str s => s
  | .parts ps => String.join (ps.map (fun p => if p.type = "text" then p.text.getD "" else ""))
  | .nullc => ""

/-- JavaScript truthiness of a message content (`if (message.content)`):
empty strings and `null` are falsy, arrays always truthy. -/
def contentTruthy : MsgContent → Bool
  | .str s => !s.isEmpty
  | .parts _ => true
  | .nullc => false

/-- Does a needle occur as a substring (`String.includes`)? -/
def occursL : List Char → List Char → Bool
  | needle, [] => needle.isEmpty
  | needle, c :: cs => (stripPre needle (c :: cs)).isSome || occursL needle cs

/-- `hay.includes(needle)`. -/
def includesStr (hay needle : String) : Bool := occursL needle.data hay.data

example : includesStr "please codebase_search now" "codebase_search" = true := by rfl

example : includesStr "hello" "read_file" = false := by rfl

namespace HarmonyIntegration

/-- The content-sniffing heuristic: does any message narrate tool syntax? -/
def contentHasToolDescriptions (messages : List OAMessage) : Bool :=
  messages.any (fun msg =>
    let c := contentText msg.content
    includesStr c "codebase_search" || includesStr c "read_file" ||
    includesStr c "Tool Use" || includesStr c "<tool_name>")

/-- The tool-suppression system preamble emitted for `tool_choice: "none"`. -/
def suppressionPreamble : String :=
  "<|system|>\nYou are a helpful AI assistant. ABSOLUTELY CRITICAL: You are FORBIDDEN from using ANY tools, function calls, or XML tags whatsoever. Do NOT use <read_file>, <search_files>, <list_files>, <codebase_search>, or ANY other tool syntax. You MUST respond ONLY with plain text. NO EXCEPTIONS. Tools are completely disabled and unavailable for this request. Any attempt to use tools will result in an error.<|end|>\n"

/-- The system preamble when tools are available. -/
def toolsPreamble : String :=
  "<|system|>\nYou are a helpful AI assistant that can use tools when needed.<|end|>\n"

/-- The plain system preamble. -/
def plainPreamble : String :=
  "<|system|>\nYou are a helpful AI assistant.<|end|>\n"

/-- The terminal reminder preamble appended after all messages when tool use
is suppressed. -/
def reminderBlock : String :=
  "<|system|>\nREMINDER: You are STRICTLY FORBIDDEN from using any tools or function calls. Respond with plain text only.<|end|>\n"

/-- The tool-catalogue system block: one line per tool, optional parameter
schema, and the calling-convention instruction. -/
def catalogueBlock (tools : List OATool) : String :=
  "<|system|>\nAvailable tools:\n"
  ++ String.join (tools.map (fun t =>
      "- " ++ t.function.name ++ ": "
      ++ (match t.function.description with
          | some d => if d.isEmpty then "No description" else d
          | none => "No description") ++ "\n"
      ++ (match t.function.parameters with
          | some v => if jsTruthy v then "  Parameters: " ++ jsonStringify v ++ "\n" else ""
          | none => "")))
  ++ "\nWhen using tools, format your calls as: <|tool_call|>function_name(\x7b\"param\": \"value\"\x7d)<|end_tool_call|>\n<|end|>\n"

/-- One conversation message serialised as Harmony text.  `sup` is the
suppression condition: system messages are skipped under it to preserve the
tool-restriction prompt. -/
def serializeMessage (sup : Bool) (m : OAMessage) : String :=
  match m.role with
  | .system =>
    if contentTruthy m.content && !sup then
      "<|system|>\n" ++ contentText m.content ++ "<|end|>\n"
    else ""
  | .user =>
    if contentTruthy m.content then
      "<|user|>\n" ++ contentText m.content ++ "<|end|>\n"
    else ""
  | .assistant =>
    "<|assistant|>\n"
    ++ (if contentTruthy m.content then contentText m.content else "")
    ++ String.join (m.tool_calls.map (fun tc =>
        "\n<|tool_call|>" ++ tc.function.name ++ "(" ++ tc.function.arguments
          ++ ")<|end_tool_call|>"))
    ++ "<|end|>\n"
  | .tool =>
    if contentTruthy m.content
        && (match m.name with | some nm => !nm.isEmpty | none => false) then
      "<|tool_result|>\nTool: " ++ (m.name.getD "") ++ "\nResult: "
        ++ contentText m.content ++ "<|end|>\n"
    else ""

/-- All conversation messages serialised in order. -/
def serializeMessages (sup : Bool) (msgs : List OAMessage) : String :=
  String.join (msgs.map (serializeMessage sup))

/-- The `harmony-integration.ts` encoder: suppression or tools preamble, the
optional tool catalogue, the serialised conversation, the optional terminal
reminder, and the open assistant turn. -/
def convertToHarmonyFormat (messages : List OAMessage) (tools : List OATool)
    (addGenerationPrompt : Bool) (toolChoice : Option ToolChoice) : String :=
  let hasTools := !tools.isEmpty
  let tcs := toolChoiceString toolChoice
  let sup := (tcs == some "none") || (tcs == none && contentHasToolDescriptions messages)
  let p1 := if sup then suppressionPreamble
            else if hasTools then toolsPreamble else plainPreamble
  let p2 := if hasTools && !(tcs == some "none") then catalogueBlock tools else ""
  let p3 := serializeMessages sup messages
  let p4 := if sup then reminderBlock else ""
  let p5 := if addGenerationPrompt then "<|assistant|>\n" else ""
  p1 ++ p2 ++ p3 ++ p4 ++ p5

end HarmonyIntegration

/-- **C3.**  For every message list and nonempty tool list with
`tool_choice: "none"`, the encoded prompt is exactly the tool-suppression
preamble, then the serialised messages (system messages skipped), then the
terminal reminder forbidding tool use, then the generation prompt — in
particular it begins with the suppression preamble, carries the reminder
after all messages, and the tool-catalogue block is never emitted (the
catalogue segment of the encoder is empty under this choice). -/
theorem convertToHarmonyFormat_choice_none (messages : List OAMessage)
    (tools : List OATool) (gen : Bool) (tc : Option ToolChoice)
    (_htools : tools ≠ []) (hnone : toolChoiceString tc = some "none") :
    HarmonyIntegration.convertToHarmonyFormat messages tools gen tc
      = HarmonyIntegration.suppressionPreamble
        ++ HarmonyIntegration.serializeMessages true messages
        ++ HarmonyIntegration.reminderBlock
        ++ (if gen then "<|assistant|>\n" else "") ∧
    (∃ rest, HarmonyIntegration.convertToHarmonyFormat messages tools gen tc
      = HarmonyIntegration.suppressionPreamble ++ rest) ∧
    (∃ pre post, HarmonyIntegration.convertToHarmonyFormat messages tools gen tc
      = pre ++ (HarmonyIntegration.reminderBlock ++ post)) := by
  have hmain : HarmonyIntegration.convertToHarmonyFormat messages tools gen tc
      = HarmonyIntegration.suppressionPreamble
        ++ HarmonyIntegration.serializeMessages true messages
        ++ HarmonyIntegration.reminderBlock
        ++ (if gen then "<|assistant|>\n" else "") := by
    unfold HarmonyIntegration.convertToHarmonyFormat
    simp [hnone]
  refine ⟨hmain,
    ⟨HarmonyIntegration.serializeMessages true messages
      ++ (HarmonyIntegration.reminderBlock ++ (if gen then "<|assistant|>\n" else "")), ?_⟩,
    ⟨HarmonyIntegration.suppressionPreamble
      ++ HarmonyIntegration.serializeMessages true messages,
     (if gen then "<|assistant|>\n" else ""), ?_⟩⟩
  · rw [hmain]
    simp [String.append_assoc]
  · rw [hmain]
    simp [String.append_assoc]

/-- Witness for the C3 theorem at a concrete request: one user message and
one registered tool with `tool_choice: "none"`. -/
theorem convertToHarmonyFormat_choice_none_witness :
    HarmonyIntegration.convertToHarmonyFormat
        [⟨.user, .str "hi", none, [], none⟩]
        [⟨"function", ⟨"get_weather", some "Get the weather", none⟩⟩]
        true (some (.str "none"))
      = HarmonyIntegration.suppressionPreamble
        ++ HarmonyIntegration.serializeMessages true [⟨.user, .str "hi", none, [], none⟩]
        ++ HarmonyIntegration.reminderBlock
        ++ (if true then "<|assistant|>\n" else "") ∧
    (∃ rest, HarmonyIntegration.convertToHarmonyFormat
        [⟨.user, .str "hi", none, [], none⟩]
        [⟨"function", ⟨"get_weather", some "Get the weather", none⟩⟩]
        true (some (.str "none"))
      = HarmonyIntegration.suppressionPreamble ++ rest) ∧
    (∃ pre post, HarmonyIntegration.convertToHarmonyFormat
        [⟨.user, .str "hi", none, [], none⟩]
        [⟨"function", ⟨"get_weather", some "Get the weather", none⟩⟩]
        true (some (.str "none"))
      = pre ++ (HarmonyIntegration.reminderBlock ++ post)) :=
  convertToHarmonyFormat_choice_none
    [⟨.user, .str "hi", none, [], none⟩]
    [⟨"function", ⟨"get_weather", some "Get the weather", none⟩⟩]
    true (some (.str "none")) (by simp) (by rfl)

/-! ### Tool registry and invocation governor -/

/-- The outcome of running a tool implementation: a value, a thrown error, or
exceeding the execution deadline (losing the timeout race). -/
inductive ExecOutcome where
  | ok (v : JsonV) : ExecOutcome
  | err (msg : String) : ExecOutcome
  | timeout : ExecOutcome

/-- A registered tool: name, JSON-schema parameters, and the (opaque, async)
implementation, modelled as a function into `ExecOutcome`. -/
structure ToolFunctionM where
  name : String
  description : String := ""
  parameters : Option JsonV := none
  exec : JsonV → ExecOutcome

/-- Registry lookup over the registration sequence: `Map.set` overwrites by
name, so the last registration for a name wins. -/
def getTool (reg : List ToolFunctionM) (name : String) : Option ToolFunctionM :=
  (reg.filter (fun t => t.name = name)).getLast?

/-- Look up a key in a JSON object. -/
def lookupKey (kvs : List (String × JsonV)) (k : String) : Option JsonV :=
  (kvs.find? (fun p => p.1 = k)).map (fun p => p.2)

/-- `tool.parameters?.required`, as a list of parameter names. -/
def requiredOf : Option JsonV → List String
  | some (.obj kvs) =>
    match lookupKey kvs "required" with
    | some (.arr xs) => xs.filterMap (fun x => match x with | .str s => some s | _ => none)
    | _ => []
  | _ => []

/-- `validateToolCall`: `none` when valid, otherwise the error message.  An
unknown tool yields the not-found failure; a missing required parameter is
reported by name; the `in` check on a non-object argument value raises a
`TypeError` that the validator catches into a generic validation error. -/
def validateToolCall (reg : List ToolFunctionM) (name : String) (args : JsonV) :
    Option String :=
  match getTool reg name with
  | none => some ("Tool \x27" ++ name ++ "\x27 not found")
  | some t =>
    match args with
    | .obj kvs =>
      match (requiredOf t.parameters).find? (fun p => (lookupKey kvs p).isNone) with
      | some p => some ("Missing required parameter: " ++ p)
      | none => none
    | .arr _ =>
      match requiredOf t.parameters with
      | [] => none
      | p :: _ => some ("Missing required parameter: " ++ p)
    | _ =>
      match requiredOf t.parameters with
      | [] => none
      | _ :: _ => some "Validation error: Cannot use the in operator on a non-object"

/-- The argument-unwrapping compatibility quirk: an `args` array whose first
element carries a `file.path` shape (or a plain object) replaces the argument
object.  Property access on `null` throws, which the caller catches as an
invalid-arguments failure. -/
def unwrapArgs : JsonV → Except String JsonV
  | .null => .error "Cannot read properties of null (reading \x27args\x27)"
  | .obj kvs =>
    match lookupKey kvs "args" with
    | some (.arr (f :: _)) =>
      match f with
      | .null => .error "Cannot read properties of null (reading \x27file\x27)"
      | .obj fkvs =>
        match lookupKey fkvs "file" with
        | some fv =>
          if jsTruthy fv then
            match fv with
            | .obj filekvs =>
              match lookupKey filekvs "path" with
              | some pv => if jsTruthy pv then .ok (.obj [("path", pv)]) else .ok f
              | none => .ok f
            | _ => .ok f
          else .ok f
        | none => .ok f
      | _ => .ok f
    | _ => .ok (.obj kvs)
  | v => .ok v

/-- What the synchronous prefix of one `executeToolCall` decides: admission
rejection, an early structured failure (bad JSON, failed validation), or a
started execution.  Early returns restore the in-flight counter in the
`finally`; a started call keeps it incremented until it settles. -/
inductive StartOutcome where
  | rejected : StartOutcome
  | earlyFail (e : String) : StartOutcome
  | started (t : ToolFunctionM) (args : JsonV) : StartOutcome

/-- Is the call actually running? -/
def isStartedO : StartOutcome → Bool
  | .started _ _ => true
  | _ => false

/-- The distinct admission-control failure message. -/
def admissionError : String := "Maximum concurrent tool executions reached"

/-- The synchronous prefix of `executeToolCall`: admission check against the
in-flight counter `c`, argument parsing, quirk unwrapping, validation; on
success the counter is incremented and execution begins. -/
def startToolCall (reg : List ToolFunctionM) (maxConc : Nat) (c : Nat)
    (tc : OAToolCall) : StartOutcome × Nat :=
  if maxConc ≤ c then (.rejected, c)
  else
    match jsonParse tc.function.arguments with
    | none => (.earlyFail "Invalid JSON arguments: malformed JSON", c)
    | some a0 =>
      match unwrapArgs a0 with
      | .error m => (.earlyFail ("Invalid JSON arguments: " ++ m), c)
      | .ok args =>
        match validateToolCall reg tc.function.name args with
        | some e => (.earlyFail e, c)
        | none =>
          match getTool reg tc.function.name with
          | some t => (.started t args, c + 1)
          | none => (.earlyFail ("Tool \x27" ++ tc.function.name ++ "\x27 not found"), c)

/-- A structured per-invocation result (`execution_time_ms` is wall-clock and
is omitted from the model). -/
structure ToolExecutionResult where
  tool_call_id : String
  function_name : String
  success : Bool
  result : Option JsonV := none
  error : Option String := none
deriving Repr

/-- Settle one call: rejected and early-failed calls produce structured
failures without invoking any implementation; a started call runs the tool
and converts a thrown error or a lost timeout race into a structured failure.
The second component logs the `(name, args)` invocations actually performed. -/
def completeToolCall (tc : OAToolCall) :
    StartOutcome → ToolExecutionResult × List (String × JsonV)
  | .rejected =>
    (⟨tc.id, tc.function.name, false, none, some admissionError⟩, [])
  | .earlyFail e =>
    (⟨tc.id, tc.function.name, false, none, some e⟩, [])
  | .started t args =>
    match t.exec args with
    | .ok v => (⟨tc.id, tc.function.name, true, some v, none⟩, [(t.name, args)])
    | .err m =>
      (⟨tc.id, tc.function.name, false, none, some ("Tool execution failed: " ++ m)⟩,
       [(t.name, args)])
    | .timeout =>
      (⟨tc.id, tc.function.name, false, none, some "Tool execution timeout"⟩,
       [(t.name, args)])

/-- One full `executeToolCall` from in-flight count `c`: synchronous prefix,
then settlement.  Total — no exception escapes the governor. -/
def executeToolCall (reg : List ToolFunctionM) (maxConc : Nat) (c : Nat)
    (tc : OAToolCall) : ToolExecutionResult × List (String × JsonV) :=
  completeToolCall tc (startToolCall reg maxConc c tc).1

/-- The synchronous start phase of a batch: `toolCalls.map(executeToolCall)`
runs every synchronous prefix in order before any completion can run, so the
in-flight counter threads through the starts. -/
def startPhase (reg : List ToolFunctionM) (maxConc : Nat) :
    List OAToolCall → Nat → List (OAToolCall × StartOutcome) × Nat
  | [], c => ([], c)
  | tc :: rest, c =>
    let s := startToolCall reg maxConc c tc
    let p := startPhase reg maxConc rest s.2
    ((tc, s.1) :: p.1, p.2)

/-- A placeholder result slot (never observed for in-range indices). -/
def emptyResult : ToolExecutionResult := ⟨"", "", false, none, none⟩

/-- `Promise.all` result aggregation: completions may run in any order
(`schedule`), but each writes its own input slot. -/
def assembleByIndex {α : Type} (n : Nat) (resOf : Nat → α) (schedule : List Nat) :
    List (Option α) :=
  schedule.foldl (fun acc i => acc.set i (some (resOf i))) (List.replicate n none)

/-- `executeToolCalls`: start every call synchronously in input order, settle
them in completion order `schedule`, and return the slot-aggregated results. -/
def executeToolCalls (reg : List ToolFunctionM) (maxConc : Nat)
    (calls : List OAToolCall) (schedule : List Nat) : List ToolExecutionResult :=
  let outs := (startPhase reg maxConc calls 0).1
  let resOf : Nat → ToolExecutionResult := fun i =>
    match outs.get? i with
    | some p => (completeToolCall p.1 p.2).1
    | none => emptyResult
  (assembleByIndex calls.length resOf schedule).map (fun o => o.getD emptyResult)

/-- The invocations a batch actually performs, in start order. -/
def governorInvocations (reg : List ToolFunctionM) (maxConc : Nat)
    (calls : List OAToolCall) : List (String × JsonV) :=
  ((startPhase reg maxConc calls 0).1).flatMap (fun p => (completeToolCall p.1 p.2).2)

/- `JSON.stringify(v, null, 2)` for scalars and empty containers is the
compact form; non-empty containers break lines with two-space indent. -/
mutual
def printJsonInd : Nat → JsonV → List Char
  | ind, .arr (e :: es) =>
    '[' :: '\n' :: printItemsInd (ind + 2) (e :: es)
      ++ '\n' :: (List.replicate ind ' ' ++ [']'])
  | ind, .obj (m :: ms) =>
    '{' :: '\n' :: printFieldsInd (ind + 2) (m :: ms)
      ++ '\n' :: (List.replicate ind ' ' ++ ['}'])
  | _, v => printJson v

def printItemsInd : Nat → List JsonV → List Char
  | _, [] => []
  | ind, [e] => List.replicate ind ' ' ++ printJsonInd ind e
  | ind, e :: e2 :: es =>
    List.replicate ind ' ' ++ printJsonInd ind e
      ++ ',' :: '\n' :: printItemsInd ind (e2 :: es)

def printFieldsInd : Nat → List (String × JsonV) → List Char
  | _, [] => []
  | ind, [(k, v)] => List.replicate ind ' ' ++ printJStr k ++ ':' :: ' ' :: printJsonInd ind v
  | ind, (k, v) :: m :: ms =>
    List.replicate ind ' ' ++ printJStr k ++ ':' :: ' ' :: printJsonInd ind v
      ++ ',' :: '\n' :: printFieldsInd ind (m :: ms)
end

/-- Pretty serialization used for tool-result content. -/
def jsonStringifyIndent (v : JsonV) : String := String.mk (printJsonInd 0 v)

example : jsonStringifyIndent (.obj [("a", .num 1), ("b", .arr [.str "x"])])
    = "\x7b\n  \"a\": 1,\n  \"b\": [\n    \"x\"\n  ]\n\x7d" := by rfl

/-- The `tool`-role message the orchestrator appends for one result. -/
def toToolMessage (r : ToolExecutionResult) : OAMessage :=
  { role := .tool
    tool_call_id := some r.tool_call_id
    name := some r.function_name
    content := .str (if r.success
      then jsonStringifyIndent (r.result.getD .null)
      else "Error: " ++ (r.error.getD "undefined")) }

lemma foldl_set_length {α : Type} (f : Nat → α) :
    ∀ (l : List Nat) (acc : List (Option α)),
      (l.foldl (fun acc i => acc.set i (some (f i))) acc).length = acc.length := by
  intro l
  induction l with
  | nil => intro acc; rfl
  | cons i rest ih =>
    intro acc
    simp only [List.foldl_cons, ih, List.length_set]

lemma foldl_set_not_mem {α : Type} (f : Nat → α) :
    ∀ (l : List Nat) (acc : List (Option α)) (j : Nat), j ∉ l →
      (l.foldl (fun acc i => acc.set i (some (f i))) acc).get? j = acc.get? j := by
  intro l
  induction l with
  | nil => intro acc j _; rfl
  | cons i rest ih =>
    intro acc j hj
    rw [List.mem_cons] at hj
    push_neg at hj
    simp only [List.foldl_cons]
    rw [ih _ _ hj.2, List.get?_set_ne _ _ (fun h => hj.1 h.symm)]

lemma foldl_set_mem {α : Type} (f : Nat → α) :
    ∀ (l : List Nat) (acc : List (Option α)) (j : Nat), j ∈ l → j < acc.length →
      (l.foldl (fun acc i => acc.set i (some (f i))) acc).get? j = some (some (f j)) := by
  intro l
  induction l with
  | nil => intro acc j hj _; exact absurd hj (List.not_mem_nil j)
  | cons i rest ih =>
    intro acc j hj hlen
    simp only [List.foldl_cons]
    by_cases hr : j ∈ rest
    · exact ih _ _ hr (by simpa using hlen)
    · have hij : j = i := by
        rcases List.mem_cons.mp hj with h | h
        · exact h
        · exact absurd h hr
      rw [foldl_set_not_mem f rest _ j hr]
      subst hij
      exact List.get?_set_eq_of_lt _ (by simpa using hlen)

/-- Completion order is irrelevant: any permutation of the slot indices fills
the aggregate with the canonical per-index results. -/
lemma assembleByIndex_perm {α : Type} (n : Nat) (resOf : Nat → α)
    (schedule : List Nat) (hp : schedule.Perm (List.range n)) :
    assembleByIndex n resOf schedule = (List.range n).map (fun i => some (resOf i)) := by
  apply List.ext_get?
  intro j
  unfold assembleByIndex
  by_cases hj : j < n
  · rw [foldl_set_mem resOf schedule _ j
      (hp.mem_iff.mpr (List.mem_range.mpr hj)) (by simpa using hj)]
    rw [List.get?_map, List.get?_range hj]
    rfl
  · rw [foldl_set_not_mem resOf schedule _ j
      (fun h => hj (List.mem_range.mp (hp.mem_iff.mp h)))]
    rw [List.get?_eq_none.mpr (by simpa using Nat.le_of_not_lt hj),
        List.get?_eq_none.mpr (by simpa using Nat.le_of_not_lt hj)]

lemma startPhase_fst (reg : List ToolFunctionM) (maxConc : Nat) :
    ∀ (calls : List OAToolCall) (c : Nat),
      ((startPhase reg maxConc calls c).1).map Prod.fst = calls := by
  intro calls
  induction calls with
  | nil => intro c; rfl
  | cons tc rest ih =>
    intro c
    simp only [startPhase, List.map_cons, ih]

lemma startPhase_length (reg : List ToolFunctionM) (maxConc : Nat)
    (calls : List OAToolCall) (c : Nat) :
    ((startPhase reg maxConc calls c).1).length = calls.length := by
  have h := congrArg List.length (startPhase_fst reg maxConc calls c)
  simpa using h

lemma completeToolCall_id (tc : OAToolCall) (s : StartOutcome) :
    (completeToolCall tc s).1.tool_call_id = tc.id := by
  cases s with
  | rejected => rfl
  | earlyFail e => rfl
  | started t args => cases h : t.exec args <;> simp [completeToolCall, h]

lemma executeToolCalls_canonical (reg : List ToolFunctionM) (maxConc : Nat)
    (calls : List OAToolCall) (schedule : List Nat)
    (hp : schedule.Perm (List.range calls.length)) :
    executeToolCalls reg maxConc calls schedule
      = ((startPhase reg maxConc calls 0).1).map
          (fun p => (completeToolCall p.1 p.2).1) := by
  have hlen := startPhase_length reg maxConc calls 0
  simp only [executeToolCalls]
  rw [assembleByIndex_perm _ _ schedule hp, List.map_map]
  apply List.ext_get?
  intro j
  rw [List.get?_map, List.get?_map]
  by_cases hj : j < calls.length
  · have hjo : j < ((startPhase reg maxConc calls 0).1).length := by
      rw [hlen]; exact hj
    rw [List.get?_range hj]
    simp [List.getElem?_eq_getElem hjo]
  · rw [List.get?_eq_none.mpr (by simpa using Nat.le_of_not_lt hj),
        List.get?_eq_none.mpr (by rw [hlen]; exact Nat.le_of_not_lt hj)]
    rfl

/-- C4: within one iteration, the batch results of `executeToolCalls` — and
hence the appended `tool`-role messages — appear in the same order as the
tool calls in the assistant message, regardless of the completion order of the
individual executions: any completion schedule yields the same result list as
the canonical in-order schedule, and the result (and message) `tool_call_id`
sequence equals the input call id sequence. -/
theorem executeToolCalls_preserves_order (reg : List ToolFunctionM) (maxConc : Nat)
    (calls : List OAToolCall) (schedule : List Nat)
    (hp : schedule.Perm (List.range calls.length)) :
    executeToolCalls reg maxConc calls schedule
      = executeToolCalls reg maxConc calls (List.range calls.length) ∧
    (executeToolCalls reg maxConc calls schedule).map
        (fun r => r.tool_call_id) = calls.map (fun tc => tc.id) ∧
    ((executeToolCalls reg maxConc calls schedule).map toToolMessage).map
        (fun m => m.tool_call_id) = calls.map (fun tc => some tc.id) := by
  have hcan := executeToolCalls_canonical reg maxConc calls schedule hp
  have hcan0 := executeToolCalls_canonical reg maxConc calls
    (List.range calls.length) (List.Perm.refl _)
  refine ⟨hcan.trans hcan0.symm, ?_, ?_⟩
  · rw [hcan, List.map_map]
    conv_rhs => rw [← startPhase_fst reg maxConc calls 0]
    rw [List.map_map]
    congr 1
    funext p
    simp [Function.comp, completeToolCall_id]
  · rw [hcan, List.map_map, List.map_map]
    conv_rhs => rw [← startPhase_fst reg maxConc calls 0]
    rw [List.map_map]
    congr 1
    funext p
    simp [Function.comp, toToolMessage, completeToolCall_id]

def wTool : ToolFunctionM :=
  { name := "get_weather"
    description := "Get current weather"
    parameters := some (.obj [("type", .str "object"),
      ("properties", .obj [("location", .obj [("type", .str "string")])]),
      ("required", .arr [.str "location"])])
    exec := fun args => .ok (.obj [("ok", .bool true), ("args", args)]) }

def wReg : List ToolFunctionM := [wTool]

def wCall (id nm args : String) : OAToolCall := ⟨id, "function", ⟨nm, args⟩⟩

def wCalls : List OAToolCall :=
  [wCall "call_a" "get_weather" "\x7b\"location\": \"Paris\"\x7d",
   wCall "call_b" "get_weather" "\x7b\"location\": \"Tokyo\"\x7d",
   wCall "call_c" "get_weather" "\x7b\"location\": \"Lima\"\x7d"]

/-- C4 witness: three calls A, B, C where B completes first (schedule
`[1, 0, 2]`), yet the result ids come back in order A, B, C. -/
theorem executeToolCalls_preserves_order_witness :
    ([1, 0, 2] : List Nat).Perm (List.range wCalls.length) ∧
    (executeToolCalls wReg 5 wCalls [1, 0, 2]).map (fun r => r.tool_call_id)
      = ["call_a", "call_b", "call_c"] := by
  refine ⟨by decide, ?_⟩
  have h := (executeToolCalls_preserves_order wReg 5 wCalls [1, 0, 2] (by decide)).2.1
  rw [h]
  rfl

/-- A call that is in itself unobjectionable: arguments parse, the unwrap
quirk succeeds, validation passes, the tool resolves and its implementation
returns normally.  Whether it runs then depends only on admission control. -/
def cleanCall (reg : List ToolFunctionM) (tc : OAToolCall) : Prop :=
  ∃ a args t v, jsonParse tc.function.arguments = some a ∧ unwrapArgs a = .ok args ∧
    validateToolCall reg tc.function.name args = none ∧
    getTool reg tc.function.name = some t ∧ t.exec args = .ok v

lemma startToolCall_clean_lt (reg : List ToolFunctionM) (maxConc c : Nat)
    (tc : OAToolCall) (h : cleanCall reg tc) (hc : c < maxConc) :
    ∃ t args v, startToolCall reg maxConc c tc = (.started t args, c + 1)
      ∧ t.exec args = .ok v := by
  obtain ⟨a, args, t, v, hpar, hun, hval, hget, hex⟩ := h
  refine ⟨t, args, v, ?_, hex⟩
  unfold startToolCall
  rw [if_neg (by omega)]
  simp [hpar, hun, hval, hget]

lemma startToolCall_at_capacity (reg : List ToolFunctionM) (maxConc c : Nat)
    (tc : OAToolCall) (hc : maxConc ≤ c) :
    startToolCall reg maxConc c tc = (.rejected, c) := by
  unfold startToolCall
  rw [if_pos hc]

/-- Counting over the synchronous start phase of a batch of clean calls from
in-flight count `c`: exactly `min length (maxConc - c)` calls run (and hence
invoke their implementations), the rest are admission-rejected. -/
theorem startPhase_counts (reg : List ToolFunctionM) (maxConc : Nat) :
    ∀ (calls : List OAToolCall) (c : Nat),
      (∀ tc ∈ calls, cleanCall reg tc) → c ≤ maxConc →
      (((startPhase reg maxConc calls c).1.map
          (fun p => (completeToolCall p.1 p.2).1)).filter
          (fun r => r.error == some admissionError)).length
        = calls.length - (maxConc - c) ∧
      (((startPhase reg maxConc calls c).1.map
          (fun p => (completeToolCall p.1 p.2).1)).filter
          (fun r => r.success)).length = min calls.length (maxConc - c) ∧
      ((startPhase reg maxConc calls c).1.flatMap
          (fun p => (completeToolCall p.1 p.2).2)).length
        = min calls.length (maxConc - c) := by
  intro calls
  induction calls with
  | nil =>
    intro c _ _
    refine ⟨?_, ?_, ?_⟩ <;> simp [startPhase]
  | cons tc rest ih =>
    intro c hcl hc
    have htc := hcl tc (List.mem_cons_self tc rest)
    have hrest : ∀ x ∈ rest, cleanCall reg x := fun x hx => hcl x (List.mem_cons_of_mem tc hx)
    by_cases hlt : c < maxConc
    · obtain ⟨t, args, v, hstart, hex⟩ := startToolCall_clean_lt reg maxConc c tc htc hlt
      obtain ⟨h1, h2, h3⟩ := ih (c + 1) hrest (by omega)
      have hcomp : completeToolCall tc (.started t args)
          = (⟨tc.id, tc.function.name, true, some v, none⟩, [(t.name, args)]) := by
        simp [completeToolCall, hex]
      refine ⟨?_, ?_, ?_⟩
      · simp only [startPhase, hstart, List.map_cons, List.filter_cons, hcomp]
        rw [if_neg (by decide), h1]
        simp only [List.length_cons]
        omega
      · simp only [startPhase, hstart, List.map_cons, List.filter_cons, hcomp]
        rw [if_pos (by decide)]
        simp only [List.length_cons]
        rw [h2]
        omega
      · simp only [startPhase, hstart, List.flatMap_cons, hcomp]
        rw [List.length_append, h3]
        simp only [List.length_singleton, List.length_cons, List.length_nil]
        omega
    · have hstart := startToolCall_at_capacity reg maxConc c tc (Nat.le_of_not_lt hlt)
      obtain ⟨h1, h2, h3⟩ := ih c hrest hc
      have hcomp : completeToolCall tc .rejected
          = (⟨tc.id, tc.function.name, false, none, some admissionError⟩, []) := rfl
      refine ⟨?_, ?_, ?_⟩
      · simp only [startPhase, hstart, List.map_cons, List.filter_cons, hcomp]
        rw [if_pos (by decide)]
        simp only [List.length_cons]
        rw [h1]
        omega
      · simp only [startPhase, hstart, List.map_cons, List.filter_cons, hcomp]
        rw [if_neg (by decide), h2]
        simp only [List.length_cons]
        omega
      · simp only [startPhase, hstart, List.flatMap_cons, hcomp, List.nil_append]
        rw [h3]
        simp only [List.length_cons]
        omega

/-- C5: admission control.  A rejected call produces an immediate structured
failure carrying the distinct admission message and performs no invocation
(last conjunct); and submitting `ceiling + 1` clean calls concurrently yields
exactly one admission rejection, exactly `ceiling` successful results and
exactly `ceiling` actual tool invocations. -/
theorem governor_admission_control (reg : List ToolFunctionM) (maxConc : Nat)
    (calls : List OAToolCall) (schedule : List Nat)
    (hlen : calls.length = maxConc + 1)
    (hclean : ∀ tc ∈ calls, cleanCall reg tc)
    (hp : schedule.Perm (List.range calls.length)) :
    ((executeToolCalls reg maxConc calls schedule).filter
        (fun r => r.error == some admissionError)).length = 1 ∧
    ((executeToolCalls reg maxConc calls schedule).filter
        (fun r => r.success)).length = maxConc ∧
    (governorInvocations reg maxConc calls).length = maxConc ∧
    (∀ tc, completeToolCall tc .rejected
      = (⟨tc.id, tc.function.name, false, none, some admissionError⟩, [])) := by
  obtain ⟨h1, h2, h3⟩ := startPhase_counts reg maxConc calls 0 hclean (Nat.zero_le _)
  rw [executeToolCalls_canonical reg maxConc calls schedule hp]
  refine ⟨?_, ?_, ?_, fun tc => rfl⟩
  · rw [h1]; omega
  · rw [h2]; omega
  · unfold governorInvocations
    rw [h3]; omega

/-- C5 witness: three clean calls against a ceiling of two — one admission
rejection, two successes, two invocations. -/
theorem governor_admission_control_witness :
    wCalls.length = 2 + 1 ∧
    ((executeToolCalls wReg 2 wCalls [0, 1, 2]).filter
        (fun r => r.error == some admissionError)).length = 1 ∧
    ((executeToolCalls wReg 2 wCalls [0, 1, 2]).filter
        (fun r => r.success)).length = 2 ∧
    (governorInvocations wReg 2 wCalls).length = 2 := by
  have hclean : ∀ tc ∈ wCalls, cleanCall wReg tc := by
    intro tc htc
    simp only [wCalls, wCall, List.mem_cons, List.not_mem_nil, or_false] at htc
    rcases htc with h | h | h <;> subst h <;>
      exact ⟨_, _, wTool, _, rfl, rfl, rfl, rfl, rfl⟩
  have h := governor_admission_control wReg 2 wCalls [0, 1, 2] rfl hclean (by decide)
  exact ⟨rfl, h.1, h.2.1, h.2.2.1⟩

/-- C6: a call naming an unknown tool, or lacking a required parameter of the
resolved tool's schema, settles to a failed `ToolExecutionResult` carrying the
descriptive error message, with no tool implementation invoked (empty
invocation log); `executeToolCall` is total, so no exception reaches the
orchestrator. -/
theorem governor_validation_failures (reg : List ToolFunctionM) (maxConc c : Nat)
    (tc : OAToolCall) (a args : JsonV)
    (hc : c < maxConc)
    (hpar : jsonParse tc.function.arguments = some a)
    (hun : unwrapArgs a = .ok args) :
    (getTool reg tc.function.name = none →
      executeToolCall reg maxConc c tc
        = (⟨tc.id, tc.function.name, false, none,
            some ("Tool \x27" ++ tc.function.name ++ "\x27 not found")⟩, [])) ∧
    (∀ t kvs p, getTool reg tc.function.name = some t → args = .obj kvs →
      (requiredOf t.parameters).find? (fun q => (lookupKey kvs q).isNone) = some p →
      executeToolCall reg maxConc c tc
        = (⟨tc.id, tc.function.name, false, none,
            some ("Missing required parameter: " ++ p)⟩, [])) := by
  constructor
  · intro hget
    have hval : validateToolCall reg tc.function.name args
        = some ("Tool \x27" ++ tc.function.name ++ "\x27 not found") := by
      unfold validateToolCall
      rw [hget]
    unfold executeToolCall startToolCall
    rw [if_neg (by omega)]
    simp [hpar, hun, hval, completeToolCall]
  · intro t kvs p hget hargs hfind
    subst hargs
    have hval : validateToolCall reg tc.function.name (.obj kvs)
        = some ("Missing required parameter: " ++ p) := by
      unfold validateToolCall
      rw [hget]
      simp [hfind]
    unfold executeToolCall startToolCall
    rw [if_neg (by omega)]
    simp [hpar, hun, hval, completeToolCall]

/-- C6 witness: calling an unregistered tool yields the structured not-found
failure and no invocation. -/
theorem governor_validation_failures_witness :
    (0 : Nat) < 5 ∧
    jsonParse "\x7b\x7d" = some (.obj []) ∧
    unwrapArgs (.obj []) = .ok (.obj []) ∧
    executeToolCall wReg 5 0 (wCall "call_x" "no_such_tool" "\x7b\x7d")
      = (⟨"call_x", "no_such_tool", false, none,
          some "Tool \x27no_such_tool\x27 not found"⟩, []) := by
  refine ⟨by decide, rfl, rfl, ?_⟩
  exact (governor_validation_failures wReg 5 0 (wCall "call_x" "no_such_tool" "\x7b\x7d")
    (.obj []) (.obj []) (by decide) rfl rfl).1 rfl

/-! ### The orchestrator loop -/

/-- The synthetic system message appended when the iteration cap is reached. -/
def capMessage : OAMessage :=
  { role := .system
    content := .str "Maximum tool execution iterations reached. Please provide a final response without using more tools." }

/-- `handleChatCompletionWithTools` against a model stub: with `k` loop
iterations remaining, either the stub answers without tool calls (one final
model turn) or its tool calls are executed, the assistant and tool-role
messages are appended, and the loop continues; at `k = 0` the cap is reached —
one last model turn with the synthetic system message appended and
`tool_choice` forced to `none`.  The result records each model turn as the
message list and the `tool_choice` it was issued with. -/
def runLoop (stub : List OAMessage → Option ToolChoice → OAMessage)
    (exec : List OAToolCall → List ToolExecutionResult)
    (tcReq : Option ToolChoice) :
    Nat → List OAMessage → List (List OAMessage × Option ToolChoice)
  | 0, msgs => [(msgs ++ [capMessage], some (.str "none"))]
  | k + 1, msgs =>
    let am := stub msgs tcReq
    match am.tool_calls with
    | [] => [(msgs, tcReq)]
    | _ :: _ =>
      (msgs, tcReq) ::
        runLoop stub exec tcReq k
          (msgs ++ [am] ++ (exec am.tool_calls).map toToolMessage)

/-- C1: against a stub whose every response carries at least one tool call,
the loop issues exactly `maxIter` ordinary model turns with the request's own
`tool_choice`, then exactly one forced turn whose `tool_choice` is `none` and
whose message list ends with the synthetic cap system message, and terminates:
`maxIter + 1` model turns in total. -/
theorem handleChatCompletionWithTools_turns
    (stub : List OAMessage → Option ToolChoice → OAMessage)
    (exec : List OAToolCall → List ToolExecutionResult)
    (tcReq : Option ToolChoice) (maxIter : Nat) (msgs : List OAMessage)
    (hcalls : ∀ ms tc, (stub ms tc).tool_calls ≠ []) :
    (runLoop stub exec tcReq maxIter msgs).length = maxIter + 1 ∧
    ∃ body final,
      runLoop stub exec tcReq maxIter msgs = body ++ [final] ∧
      body.length = maxIter ∧
      (∀ t ∈ body, t.2 = tcReq) ∧
      final.2 = some (.str "none") ∧
      ∃ ms0, final.1 = ms0 ++ [capMessage] := by
  induction maxIter generalizing msgs with
  | zero =>
    refine ⟨rfl, [], (msgs ++ [capMessage], some (.str "none")), rfl, rfl, ?_, rfl, msgs, rfl⟩
    intro t ht
    exact absurd ht (List.not_mem_nil t)
  | succ k ih =>
    have hne := hcalls msgs tcReq
    obtain ⟨tc0, tcs, htc⟩ : ∃ tc0 tcs, (stub msgs tcReq).tool_calls = tc0 :: tcs := by
      cases h : (stub msgs tcReq).tool_calls with
      | nil => exact absurd h hne
      | cons a as => exact ⟨a, as, rfl⟩
    have hstep : runLoop stub exec tcReq (k + 1) msgs
        = (msgs, tcReq) ::
            runLoop stub exec tcReq k
              (msgs ++ [stub msgs tcReq]
                ++ (exec (stub msgs tcReq).tool_calls).map toToolMessage) := by
      rw [runLoop]
      rw [htc]
    set msgs2 := msgs ++ [stub msgs tcReq]
      ++ (exec (stub msgs tcReq).tool_calls).map toToolMessage with hmsgs2
    obtain ⟨hlen, body, final, heq, hblen, hbody, hfin, ms0, hms0⟩ := ih msgs2
    refine ⟨?_, (msgs, tcReq) :: body, final, ?_, ?_, ?_, hfin, ms0, hms0⟩
    · rw [hstep, List.length_cons, hlen]
    · rw [hstep, heq, List.cons_append]
    · rw [List.length_cons, hblen]
    · intro t ht
      rcases List.mem_cons.mp ht with h | h
      · rw [h]
      · exact hbody t h

def wStub : List OAMessage → Option ToolChoice → OAMessage := fun _ _ =>
  { role := .assistant
    content := .nullc
    tool_calls := [wCall "call_w" "get_weather" "\x7b\"location\": \"Oslo\"\x7d"] }

def wExec : List OAToolCall → List ToolExecutionResult := fun calls =>
  executeToolCalls wReg 5 calls (List.range calls.length)

/-- C1 witness: a stub that always calls a tool, `maxToolIterations = 2` —
exactly three model turns. -/
theorem handleChatCompletionWithTools_turns_witness :
    (∀ ms tc, (wStub ms tc).tool_calls ≠ []) ∧
    (runLoop wStub wExec none 2 []).length = 2 + 1 := by
  have hc : ∀ ms tc, (wStub ms tc).tool_calls ≠ [] := by
    intro ms tc
    simp [wStub]
  exact ⟨hc, (handleChatCompletionWithTools_turns wStub wExec none 2 [] hc).1⟩

/-! ### Iteration-cap configuration -/

/-- The constructor: `this.maxToolIterations = options.maxToolIterations ?? 5`
— the option value is taken as-is, with no clamping. -/
def initMaxToolIterations (opt : Option Int) : Int := opt.getD 5

/-- `setMaxToolIterations`: `Math.max(1, Math.min(max, 10))`. -/
def setMaxToolIterations (v : Int) : Int := max 1 (min v 10)

/-- C7 counterexample: configuring `maxToolIterations: 0` through the
constructor option yields an effective value of 0, outside `[1, 10]` — the
constructor path does not clamp. -/
theorem maxToolIterations_clamp_counterexample :
    initMaxToolIterations (some 0) = 0 ∧
    ¬(1 ≤ initMaxToolIterations (some 0) ∧ initMaxToolIterations (some 0) ≤ 10) := by
  refine ⟨rfl, ?_⟩
  intro h
  simp [initMaxToolIterations] at h

/-- C7 amended: only the setter clamps — `setMaxToolIterations` always lands
in `[1, 10]`; the default (no option given) is 5; a constructor option is
used verbatim, however far outside `[1, 10]` it lies. -/
theorem maxToolIterations_clamp_amended :
    (∀ v : Int, 1 ≤ setMaxToolIterations v ∧ setMaxToolIterations v ≤ 10) ∧
    initMaxToolIterations none = 5 ∧
    (∀ v : Int, initMaxToolIterations (some v) = v) := by
  refine ⟨?_, rfl, fun v => rfl⟩
  intro v
  unfold setMaxToolIterations
  constructor
  · exact le_max_left 1 (min v 10)
  · exact max_le (by norm_num) (min_le_right v 10)

/-! ### Stream reconstruction (`processGptOssStream`) -/

/-- `String(v)` as JavaScript coerces a value appended to a string; array
join turns `null` elements into the empty string.  Fuel-indexed for structural
recursion — `sizeOf` always suffices as nesting depth. -/
def jsStringOfF (fuel : Nat) : JsonV → String := fun v =>
  match v with
  | .null => "null"
  | .bool b => cond b "true" "false"
  | .num n => String.mk (intChars n)
  | .str s => s
  | .obj _ => "[object Object]"
  | .arr es =>
    match fuel with
    | 0 => ""
    | fuel2 + 1 =>
      String.intercalate "," (es.map (fun e =>
        match e with
        | .null => ""
        | v2 => jsStringOfF fuel2 v2))

/- Nesting depth of a JSON value, the fuel `jsStringOfF` needs. -/
mutual
def jdepth : JsonV → Nat
  | .arr es => jdepthL es + 1
  | .obj ms => jdepthM ms + 1
  | _ => 1

def jdepthL : List JsonV → Nat
  | [] => 0
  | e :: es => max (jdepth e) (jdepthL es)

def jdepthM : List (String × JsonV) → Nat
  | [] => 0
  | (_, v) :: ms => max (jdepth v) (jdepthM ms)
end

def jsStringOf (v : JsonV) : String := jsStringOfF (jdepth v) v

/-- `data.choices?.[0]?.delta?.content` by optional chaining. -/
def deltaContent : JsonV → Option JsonV
  | .obj kvs =>
    match lookupKey kvs "choices" with
    | some (.arr (c0 :: _)) =>
      match c0 with
      | .obj ckvs =>
        match lookupKey ckvs "delta" with
        | some (.obj dkvs) => lookupKey dkvs "content"
        | _ => none
      | _ => none
    | _ => none
  | _ => none

/-- An element of the reconstructed output stream: a forwarded input line, or
the one synthesized chunk whose `delta.tool_calls` carries the decoded calls
with `finish_reason: tool_calls` (its wall-clock `id`/`created` fields are
omitted from the model). -/
inductive StreamEvent where
  | line (s : String) : StreamEvent
  | toolChunk (calls : List OAToolCall) : StreamEvent
deriving Repr, DecidableEq

/-- One line of a chunk: a non-sentinel `data:` line is forwarded unchanged
(accumulating its truthy delta content); the sentinel decodes the accumulated
content, emits the synthesized tool-call chunk if the decode found calls, then
forwards the sentinel and breaks out of the chunk; anything else is forwarded.
Result: (events, new accumulated content, whether the chunk loop broke). -/
def procLine (idGen : Nat → String) (acc : String) (l : String) :
    List StreamEvent × String × Bool :=
  if "data: ".data.isPrefixOf l.data && l != "data: [DONE]" then
    match jsonParse (String.mk (l.data.drop 6)) with
    | some d =>
      match deltaContent d with
      | some cv =>
        if jsTruthy cv then ([.line l], (acc ++ jsStringOf cv, false))
        else ([.line l], (acc, false))
      | none => ([.line l], (acc, false))
    | none => ([.line l], (acc, false))
  else if l == "data: [DONE]" then
    ((if acc != "" then
        match (HarmonyOfficial.parseHarmonyResponse idGen acc).toolCalls with
        | some (c :: cs) => [StreamEvent.toolChunk (c :: cs)]
        | _ => []
      else []) ++ [.line l], (acc, true))
  else ([.line l], (acc, false))

def runChunkLines (idGen : Nat → String) : List String → String → List StreamEvent × String
  | [], acc => ([], acc)
  | l :: ls, acc =>
    let r := procLine idGen acc l
    if r.2.2 then (r.1, r.2.1)
    else
      let rest := runChunkLines idGen ls r.2.1
      (r.1 ++ rest.1, rest.2)

def runStream (idGen : Nat → String) : List (List String) → String → List StreamEvent
  | [], _ => []
  | ch :: chs, acc =>
    let r := runChunkLines idGen ch acc
    r.1 ++ runStream idGen chs r.2

/-- The whole reconstructor over a stream of already line-split chunks. -/
def processGptOssStream (idGen : Nat → String) (chunks : List (List String)) :
    List StreamEvent :=
  runStream idGen chunks ""

/-- A content-only data line whose payload's delta content is the non-empty
string `c`. -/
def lineYieldsContent (l c : String) : Prop :=
  "data: ".data.isPrefixOf l.data = true ∧ l ≠ "data: [DONE]" ∧ c ≠ "" ∧
  ∃ d, jsonParse (String.mk (l.data.drop 6)) = some d ∧ deltaContent d = some (.str c)

example :
    procLine (fun i => s!"call_{i}") "acc"
      "data: \x7b\"choices\":[\x7b\"delta\":\x7b\"content\":\"hi\"\x7d\x7d]\x7d"
    = ([.line "data: \x7b\"choices\":[\x7b\"delta\":\x7b\"content\":\"hi\"\x7d\x7d]\x7d"],
       ("acchi", false)) := by rfl

example :
    procLine (fun i => s!"call_{i}")
      "<|tool_call|>get_weather(\x7b\"location\": \"Oslo\"\x7d)<|end_tool_call|>"
      "data: [DONE]"
    = ([.toolChunk [⟨"call_0", "function",
          ⟨"get_weather", "\x7b\"location\":\"Oslo\"\x7d"⟩⟩],
        .line "data: [DONE]"],
       ("<|tool_call|>get_weather(\x7b\"location\": \"Oslo\"\x7d)<|end_tool_call|>", true)) := by
  rfl

lemma procLine_content (idGen : Nat → String) (acc l c : String)
    (h : lineYieldsContent l c) :
    procLine idGen acc l = ([.line l], (acc ++ c, false)) := by
  obtain ⟨h1, h2, h3, d, h4, h5⟩ := h
  have htr : jsTruthy (.str c) = true := by
    cases hE : c.isEmpty with
    | false => simp [jsTruthy, hE]
    | true => exact absurd ((String.isEmpty_iff c).mp hE) h3
  have hst : jsStringOf (.str c) = c := rfl
  unfold procLine
  rw [if_pos (by simp [h1, h2])]
  simp only [h4, h5, htr, if_true, hst]

lemma procLine_sentinel (idGen : Nat → String) (acc : String) :
    procLine idGen acc "data: [DONE]"
      = ((if acc != "" then
            match (HarmonyOfficial.parseHarmonyResponse idGen acc).toolCalls with
            | some (c :: cs) => [StreamEvent.toolChunk (c :: cs)]
            | _ => []
          else []) ++ [.line "data: [DONE]"], (acc, true)) := by
  unfold procLine
  rw [if_neg (by decide), if_pos (by decide)]

lemma str_append_empty (s : String) : s ++ "" = s := by
  apply String.ext
  simp [String.data_append]

/-- Concatenation of the per-line content pieces of a chunk list. -/
def joinContents : List (String × String) → String
  | [] => ""
  | p :: ps => p.2 ++ joinContents ps

lemma runStream_content (idGen : Nat → String) :
    ∀ (items : List (String × String)) (acc : String) (tail : List (List String)),
      (∀ p ∈ items, lineYieldsContent p.1 p.2) →
      runStream idGen (items.map (fun p => [p.1]) ++ tail) acc
        = items.map (fun p => StreamEvent.line p.1)
          ++ runStream idGen tail (acc ++ joinContents items) := by
  intro items
  induction items with
  | nil =>
    intro acc tail _
    simp only [List.map_nil, List.nil_append, joinContents, str_append_empty]
  | cons p rest ih =>
    intro acc tail h
    have hp := h p (List.mem_cons_self p rest)
    have hrest : ∀ q ∈ rest, lineYieldsContent q.1 q.2 :=
      fun q hq => h q (List.mem_cons_of_mem p hq)
    simp only [List.map_cons, List.cons_append]
    rw [runStream]
    have hch : runChunkLines idGen [p.1] acc = ([StreamEvent.line p.1], acc ++ p.2) := by
      rw [runChunkLines, procLine_content idGen acc p.1 p.2 hp]
      simp [runChunkLines]
    rw [hch]
    rw [ih (acc ++ p.2) tail hrest]
    rw [show joinContents (p :: rest) = p.2 ++ joinContents rest from rfl,
        ← String.append_assoc]
    rfl

lemma parseHarmony_empty_toolCalls (idGen : Nat → String) :
    (HarmonyOfficial.parseHarmonyResponse idGen "").toolCalls = none := by
  have hx : extractToolCalls "" = [] := rfl
  simp [HarmonyOfficial.parseHarmonyResponse, hx]

/-- C8: for a stream of content-only data chunks followed by the sentinel,
whose concatenated content decodes to at least one tool call, the output is
exactly: every content chunk forwarded unchanged in arrival order, then the
one synthesized chunk carrying the decoded `tool_calls`, then the forwarded
sentinel line — so no sentinel is ever emitted before the synthesized chunk. -/
theorem processGptOssStream_order (idGen : Nat → String)
    (items : List (String × String)) (tcs : List OAToolCall)
    (hitems : ∀ p ∈ items, lineYieldsContent p.1 p.2)
    (htc : (HarmonyOfficial.parseHarmonyResponse idGen
        (joinContents items)).toolCalls = some tcs)
    (hne : tcs ≠ []) :
    processGptOssStream idGen (items.map (fun p => [p.1]) ++ [["data: [DONE]"]])
      = items.map (fun p => StreamEvent.line p.1)
          ++ [.toolChunk tcs, .line "data: [DONE]"] := by
  obtain ⟨c0, cs, rfl⟩ : ∃ c0 cs, tcs = c0 :: cs := by
    cases tcs with
    | nil => exact absurd rfl hne
    | cons a as => exact ⟨a, as, rfl⟩
  have hAne : joinContents items ≠ "" := by
    intro h0
    rw [h0, parseHarmony_empty_toolCalls] at htc
    exact Option.noConfusion htc
  unfold processGptOssStream
  rw [runStream_content idGen items "" [["data: [DONE]"]] hitems]
  congr 1
  have hA : ("" : String) ++ joinContents items = joinContents items := by
    apply String.ext
    simp [String.data_append]
  rw [hA, runStream, runChunkLines, procLine_sentinel]
  simp [htc, bne_iff_ne, hAne, runStream]

def wItems : List (String × String) :=
  [("data: \x7b\"choices\":[\x7b\"delta\":\x7b\"content\":\"<|tool_call|>get_weather(\"\x7d\x7d]\x7d",
    "<|tool_call|>get_weather("),
   ("data: \x7b\"choices\":[\x7b\"delta\":\x7b\"content\":\"\x7b\\\"location\\\": \\\"Oslo\\\"\x7d\"\x7d\x7d]\x7d",
    "\x7b\"location\": \"Oslo\"\x7d"),
   ("data: \x7b\"choices\":[\x7b\"delta\":\x7b\"content\":\")<|end_tool_call|>\"\x7d\x7d]\x7d",
    ")<|end_tool_call|>")]

/-- C8 witness: three content chunks whose concatenation holds one tool-call
marker — three forwarded lines, one synthesized tool-call chunk, then the
forwarded sentinel, in that exact order. -/
theorem processGptOssStream_order_witness :
    (∀ p ∈ wItems, lineYieldsContent p.1 p.2) ∧
    processGptOssStream (fun i => s!"call_{i}")
        (wItems.map (fun p => [p.1]) ++ [["data: [DONE]"]])
      = wItems.map (fun p => StreamEvent.line p.1)
          ++ [.toolChunk [⟨"call_0", "function",
                ⟨"get_weather", "\x7b\"location\":\"Oslo\"\x7d"⟩⟩],
              .line "data: [DONE]"] := by
  have hitems : ∀ p ∈ wItems, lineYieldsContent p.1 p.2 := by
    intro p hp
    simp only [wItems, List.mem_cons, List.not_mem_nil, or_false] at hp
    rcases hp with h | h | h <;> subst h <;>
      exact ⟨rfl, by decide, by decide, _, rfl, rfl⟩
  refine ⟨hitems, ?_⟩
  exact processGptOssStream_order (fun i => s!"call_{i}") wItems _ hitems rfl (by decide)
